import Mathlib

/-!
Shallow embedding of the vantage-point tree of src/vptree.hpp.

Modelling conventions:
* C++ double distances are modelled as exact rationals.  The sentinel
  tau = std::numeric_limits<double>::max() is modelled as Option ℚ with
  none standing for the "larger than every distance" initial value, which
  is how the code uses it.
* std::vector index accesses are modelled with List.get?; an out-of-bounds
  access (undefined behaviour in C++) makes the search return none.
  Popping an empty std::priority_queue (also undefined behaviour) likewise
  returns none.
* std::mt19937 together with std::uniform_int_distribution is modelled by
  an arbitrary stream f of naturals and a position counter: the draw for
  the range lower..upper-1 is lower + f pos % (upper - lower).  Theorems
  quantify over every stream, hence over every possible random choice.
* std::nth_element on the subrange is modelled by fully sorting the
  subrange with the same comparator (insertion sort); a full sort is a
  refinement of the nth_element postcondition, which only constrains the
  subrange up to the partition point.
* std::priority_queue (a max-heap on dist with unspecified tie order) is
  modelled as a list kept sorted by non-increasing dist; push inserts the
  new element after existing elements of equal dist, top is the head and
  pop removes the head.
* The comparison heap_.size() == neighborsCount_ compares a size_t with an
  int, converting the int to size_t modulo 2 ^ 64; heapFull models exactly
  that conversion.
-/

namespace Vpt

/-- Tree node, mirroring VpTree::Node: an index into the item sequence, a
distance threshold and the two child indices with -1 as the Leaf sentinel. -/
structure Node where
  item : ℕ
  threshold : ℚ
  left : Int
  right : Int
deriving Repr, DecidableEq, Inhabited

/-- The Leaf sentinel, Node::Leaf = -1. -/
def Node.Leaf : Int := -1

/-- A search result, mirroring vpt::Result: the (dereferenced) item, its
original insertion index and its distance to the query. -/
structure Result (T : Type) where
  item : T
  index : ℕ
  dist : ℚ
deriving Repr, DecidableEq

/-- The state mutated by tree construction: the item sequence items_
(pairs of item and original index), the node sequence nodes_, and the
position in the random stream. -/
structure BuildState (T : Type) where
  items : List (T × ℕ)
  nodes : List Node
  pos : ℕ

/-- makeItems: pair every input item with its original position, mirroring
the loop in VpTree::makeItems (i counts from the given start value). -/
def makeItems {T : Type} : List T → ℕ → List (T × ℕ)
  | [], _ => []
  | x :: xs, i => (x, i) :: makeItems xs (i + 1)

/-- std::swap of two positions of a list (no-op when an index is out of
range, which never happens in the places the builder uses it). -/
def listSwap {α : Type _} (l : List α) (i j : ℕ) : List α :=
  match l.get? i, l.get? j with
  | some a, some b => (l.set i b).set j a
  | _, _ => l

/-- The contiguous subrange of positions a..b-1 of a list. -/
def slice {α : Type _} (l : List α) (a b : ℕ) : List α :=
  (l.drop a).take (b - a)

/-- Sort the subrange a..b-1 of a list by a rational key, leaving the rest
in place.  Used to model std::nth_element (see module docstring). -/
def sortRange {α : Type _} (key : α → ℚ) (l : List α) (a b : ℕ) : List α :=
  l.take a ++ List.insertionSort (fun x y => key x ≤ key y) (slice l a b) ++ l.drop b

/-- VpTree::selectRoot: draw a uniformly random position in lower..upper-1
and swap it into position lower. -/
def selectRoot {T : Type} (f : ℕ → ℕ) (st : BuildState T) (lower upper : ℕ) :
    BuildState T :=
  let root := lower + f st.pos % (upper - lower)
  ⟨listSwap st.items lower root, st.nodes, st.pos + 1⟩

/-- VpTree::partitionByDistance: rearrange items in lower+1..upper-1 so
that they are partitioned (here: sorted, a refinement of std::nth_element)
by distance to the vantage point stored at position lower. -/
def partitionByDistance {T : Type} [Inhabited T] (d : T → T → ℚ)
    (st : BuildState T) (lower pos upper : ℕ) : BuildState T :=
  let _ := pos
  ⟨sortRange (fun p => d (st.items.getD lower default).1 p.1) st.items (lower + 1) upper,
   st.nodes, st.pos⟩

/-- VpTree::makeNode: append a node for the given item index (threshold 0,
both children Leaf) and return its index. -/
def makeNode {T : Type} (st : BuildState T) (item : ℕ) : BuildState T × ℕ :=
  (⟨st.items, st.nodes ++ [⟨item, 0, Node.Leaf, Node.Leaf⟩], st.pos⟩, st.nodes.length)

/-- Overwrite node j. -/
def setNode {T : Type} (st : BuildState T) (j : ℕ) (nd : Node) : BuildState T :=
  ⟨st.items, st.nodes.set j nd, st.pos⟩

/-- Fuelled body of VpTree::makeTree.  The fuel is only a termination
device: makeTree supplies fuel upper - lower, and every recursive call
strictly shrinks the range, so the fuel-0 branch is never taken when the
function is entered through makeTree. -/
def makeTreeGo {T : Type} [Inhabited T] (d : T → T → ℚ) (f : ℕ → ℕ) :
    ℕ → BuildState T → ℕ → ℕ → BuildState T × Int
  | 0, st, _, _ => (st, Node.Leaf)
  | fuel + 1, st, lower, upper =>
    if upper ≤ lower then (st, Node.Leaf)
    else if upper = lower + 1 then
      let r := makeNode st lower
      (r.1, (r.2 : Int))
    else
      let st1 := selectRoot f st lower upper
      let median := (upper + lower) / 2
      let st2 := partitionByDistance d st1 lower median upper
      let r := makeNode st2 lower
      let st3 := r.1
      let j := r.2
      let thr := d (st3.items.getD lower default).1 (st3.items.getD median default).1
      let st4 := setNode st3 j { st3.nodes.getD j default with threshold := thr }
      let rl := makeTreeGo d f fuel st4 (lower + 1) median
      let st5 := rl.1
      let st6 := setNode st5 j { st5.nodes.getD j default with left := rl.2 }
      let rr := makeTreeGo d f fuel st6 median upper
      let st7 := rr.1
      let st8 := setNode st7 j { st7.nodes.getD j default with right := rr.2 }
      (st8, (j : Int))

/-- VpTree::makeTree on the range lower..upper-1. -/
def makeTree {T : Type} [Inhabited T] (d : T → T → ℚ) (f : ℕ → ℕ)
    (st : BuildState T) (lower upper : ℕ) : BuildState T × Int :=
  makeTreeGo d f (upper - lower) st lower upper

/-- The tree object: the metric, the (permuted) item sequence, the node
sequence, and the private random source (stream and position) left behind
by construction.  The search never reads the random source. -/
structure VpTree (T : Type) where
  getDistance : T → T → ℚ
  items : List (T × ℕ)
  nodes : List Node
  rngStream : ℕ → ℕ
  rngPos : ℕ

/-- The VpTree constructor: pair items with their indices, then build the
node sequence over the whole range. -/
def VpTree.build {T : Type} [Inhabited T] (d : T → T → ℚ) (f : ℕ → ℕ)
    (xs : List T) : VpTree T :=
  let its := makeItems xs 0
  let r := makeTree d f ⟨its, [], 0⟩ 0 its.length
  ⟨d, r.1.items, r.1.nodes, f, r.1.pos⟩

/-- A pending candidate on the searcher's heap: item index and distance. -/
structure HeapItem where
  item : ℕ
  dist : ℚ
deriving Repr, DecidableEq

/-- Push onto the max-heap, modelled as insertion into a list sorted by
non-increasing dist (ties keep the older element in front). -/
def heapPush : List HeapItem → HeapItem → List HeapItem
  | [], x => [x]
  | y :: ys, x => if y.dist < x.dist then x :: y :: ys else y :: heapPush ys x

/-- The private state of a Searcher: the candidate heap and tau
(none = the initial std::numeric_limits<double>::max()). -/
structure SState where
  heap : List HeapItem
  tau : Option ℚ
deriving Repr, DecidableEq

/-- heap_.size() == neighborsCount_: a size_t compared with an int, which
converts the int to size_t, i.e. reduces it modulo 2 ^ 64. -/
def heapFull (len : ℕ) (k : Int) : Bool :=
  (len : Int) == k % (2 ^ 64)

/-- dist < tau_, where tau may still be the initial maximal value. -/
def distLtTau (dist : ℚ) : Option ℚ → Bool
  | none => true
  | some t => decide (dist < t)

/-- dist - tau_ <= threshold, the test guarding the near (left) child. -/
def nearCond (dist : ℚ) (tau : Option ℚ) (thr : ℚ) : Bool :=
  match tau with
  | none => true
  | some t => decide (dist - t ≤ thr)

/-- dist + tau_ >= threshold, the test guarding the far (right) child. -/
def farCond (dist : ℚ) (tau : Option ℚ) (thr : ℚ) : Bool :=
  match tau with
  | none => true
  | some t => decide (thr ≤ dist + t)

/-- The candidate admission block of Searcher::searchInNode: if dist < tau
then (pop the worst when the heap is at capacity - undefined behaviour,
hence none, when the heap is empty), push, and when the heap is exactly at
capacity update tau to the new worst-in-heap distance. -/
def addCandidate (k : Int) (item : ℕ) (dist : ℚ) (st : SState) : Option SState :=
  if distLtTau dist st.tau then
    (if heapFull st.heap.length k then
       match st.heap with
       | [] => none
       | _ :: rest => some rest
     else some st.heap).bind (fun h1 =>
      let h2 := heapPush h1 ⟨item, dist⟩
      let tau2 := if heapFull h2.length k then
                    match h2 with
                    | [] => st.tau
                    | top :: _ => some top.dist
                  else st.tau
      some ⟨h2, tau2⟩)
  else some st

/-- Searcher::searchInNode, by node index, with fuel for termination (the
search supplies fuel nodes.length, which dominates the tree height). -/
def searchInNode {T : Type} (d : T → T → ℚ) (items : List (T × ℕ))
    (nodes : List Node) (target : T) (k : Int) :
    ℕ → ℕ → SState → Option SState
  | 0, _, _ => none
  | fuel + 1, idx, st =>
    (nodes.get? idx).bind (fun nd =>
    (items.get? nd.item).bind (fun pr =>
    let dist := d pr.1 target
    (addCandidate k nd.item dist st).bind (fun st1 =>
    if decide (dist < nd.threshold) then
      (if nd.left != Node.Leaf && nearCond dist st1.tau nd.threshold
       then searchInNode d items nodes target k fuel nd.left.toNat st1
       else some st1).bind (fun st2 =>
      if nd.right != Node.Leaf && farCond dist st2.tau nd.threshold
      then searchInNode d items nodes target k fuel nd.right.toNat st2
      else some st2)
    else
      (if nd.right != Node.Leaf && farCond dist st1.tau nd.threshold
       then searchInNode d items nodes target k fuel nd.right.toNat st1
       else some st1).bind (fun st2 =>
      if nd.left != Node.Leaf && nearCond dist st2.tau nd.threshold
      then searchInNode d items nodes target k fuel nd.left.toNat st2
      else some st2))))

/-- The result-assembly loop of Searcher::search: repeatedly read the top
of the heap, turn it into a Result via items_, and pop.  Reading items_
out of bounds is undefined behaviour, hence none. -/
def drain {T : Type} (items : List (T × ℕ)) : List HeapItem → Option (List (Result T))
  | [] => some []
  | h :: t =>
    (items.get? h.item).bind (fun pr =>
    (drain items t).bind (fun rest =>
    some (⟨pr.1, pr.2, h.dist⟩ :: rest)))

/-- VpTree::getNearestNeighbors: construct a Searcher and run
Searcher::search, i.e. read the root node nodes_[0] (undefined behaviour
on an empty tree, hence none), recurse from it, drain the heap and reverse
the popped order to ascending distance. -/
def VpTree.getNearestNeighbors {T : Type} (t : VpTree T) (target : T)
    (neighborsCount : Int) : Option (List (Result T)) :=
  (t.nodes.get? 0).bind (fun _ =>
  (searchInNode t.getDistance t.items t.nodes target neighborsCount
      t.nodes.length 0 ⟨[], none⟩).bind (fun stF =>
  (drain t.items stF.heap).bind (fun res =>
  some res.reverse)))

/-- Modelled from the spec: the brute-force k-nearest-neighbor reference,
"the list obtained by sorting all items by ascending distance to q". -/
def bruteForceNeighbors {T : Type} (d : T → T → ℚ) (xs : List T) (q : T) :
    List (Result T) :=
  List.insertionSort (fun r s => r.dist ≤ s.dist)
    ((makeItems xs 0).map (fun p => ⟨p.1, p.2, d p.1 q⟩))

/-- The item indices stored in the subtree rooted at a node index (Leaf or
out-of-range indices contribute nothing); fuel-bounded traversal of the
flat node sequence. -/
def collectItems (nodes : List Node) : ℕ → Int → List ℕ
  | 0, _ => []
  | fuel + 1, idx =>
    if idx < 0 then []
    else
      match nodes.get? idx.toNat with
      | none => []
      | some nd =>
        nd.item :: (collectItems nodes fuel nd.left ++ collectItems nodes fuel nd.right)

/-- The structural invariant of a built subtree sitting at node index idx
over the item range lower..upper-1, with all of its node indices inside
a..b-1: the vantage point is the item at position lower, the left subtree
covers lower+1..m-1 with distances at most the threshold, the right
subtree covers m..upper-1 with distances at least the threshold. -/
inductive Shape {T : Type} [Inhabited T] (d : T → T → ℚ) (items : List (T × ℕ))
    (nodes : List Node) : ℕ → ℕ → Int → ℕ → ℕ → Prop
  | leaf (a b lo : ℕ) : Shape d items nodes a b Node.Leaf lo lo
  | node (a b j lo hi m : ℕ) (nd : Node)
      (hlo : lo < hi) (hm1 : lo + 1 ≤ m) (hm2 : m ≤ hi)
      (hja : a ≤ j) (hjb : j < b)
      (hget : nodes.get? j = some nd)
      (hitem : nd.item = lo)
      (hlen : hi ≤ items.length)
      (hleft : ∀ p, lo + 1 ≤ p → p < m →
        d (items.getD lo default).1 (items.getD p default).1 ≤ nd.threshold)
      (hright : ∀ p, m ≤ p → p < hi →
        nd.threshold ≤ d (items.getD lo default).1 (items.getD p default).1)
      (hL : Shape d items nodes a b nd.left (lo + 1) m)
      (hR : Shape d items nodes a b nd.right m hi) :
      Shape d items nodes a b (j : Int) lo hi

/-- The metric used by concrete witnesses: absolute difference on ℤ. -/
def dInt : ℤ → ℤ → ℚ := fun x y => ((x - y).natAbs : ℚ)

/-- The constant-zero random stream used by concrete witnesses. -/
def f0 : ℕ → ℕ := fun _ => 0

/-- Proof infrastructure: l2 arises from l by changes confined to the index
range a..b-1, where it is a permutation (lengths equal, entries outside the
range untouched, the range itself permuted). -/
def Frame {α : Type _} [Inhabited α] (l l2 : List α) (a b : ℕ) : Prop :=
  l2.length = l.length ∧
  (∀ p, p < a ∨ b ≤ p → l2.getD p default = l.getD p default) ∧
  (slice l2 a b).Perm (slice l a b)

/-- The heap invariant: the candidate list is sorted by non-increasing
distance (the maximum at the head, as for a max-heap read through its pop
order). -/
def heapSortedDesc (h : List HeapItem) : Prop :=
  h.Pairwise (fun x y => y.dist ≤ x.dist)

/-- The heap entry the search pushes for the item stored at position i. -/
def entryOf {T : Type} [Inhabited T] (d : T → T → ℚ) (items : List (T × ℕ))
    (q : T) (i : ℕ) : HeapItem :=
  ⟨i, d (items.getD i default).1 q⟩

/-- Turn a heap entry into the Result the drain loop produces for it. -/
def resultOf {T : Type} [Inhabited T] (items : List (T × ℕ)) (e : HeapItem) :
    Result T :=
  ⟨(items.getD e.item default).1, (items.getD e.item default).2, e.dist⟩

/-- Proof infrastructure: everything one build step guarantees about its
result, relative to the entry state and the range it was called on: items
only permuted inside the range, exactly upper - lower nodes appended whose
item fields enumerate the range, the returned root index, and the Shape
invariant for the root and for every appended node. -/
def BuildSpec {T : Type} [Inhabited T] (d : T → T → ℚ) (f : ℕ → ℕ)
    (st : BuildState T) (lo hi : ℕ) (res : BuildState T × Int) : Prop :=
  Frame st.items res.1.items lo hi ∧
  (∃ suf : List Node, res.1.nodes = st.nodes ++ suf ∧ suf.length = hi - lo ∧
    (suf.map (fun nd => nd.item)).Perm (List.range' lo (hi - lo))) ∧
  (res.2 = if lo < hi then (st.nodes.length : Int) else Node.Leaf) ∧
  (lo ≤ hi →
    Shape d res.1.items res.1.nodes st.nodes.length res.1.nodes.length res.2 lo hi) ∧
  (∀ jj, st.nodes.length ≤ jj → jj < res.1.nodes.length →
    ∃ lo2 hi2, lo ≤ lo2 ∧ hi2 ≤ hi ∧
      Shape d res.1.items res.1.nodes st.nodes.length res.1.nodes.length
        (jj : Int) lo2 hi2) ∧
  (lo + 2 ≤ hi →
    (res.1.nodes.getD st.nodes.length default).threshold
      = d ((partitionByDistance d (selectRoot f st lo hi) lo
            ((hi + lo) / 2) hi).items.getD lo default).1
          ((partitionByDistance d (selectRoot f st lo hi) lo
            ((hi + lo) / 2) hi).items.getD ((hi + lo) / 2) default).1)

/-! ### Theorems -/

section ListUtil

variable {α : Type _} [Inhabited α]

theorem getD_eq_get? (l : List α) (n : ℕ) :
    l.getD n default = (l.get? n).getD default := by
  rw [List.getD_eq_getElem?_getD, List.get?_eq_getElem?]

theorem get?_eq_some_getD {l : List α} {n : ℕ} (h : n < l.length) :
    l.get? n = some (l.getD n default) := by
  rw [List.get?_eq_getElem?, List.getElem?_eq_getElem h, List.getD_eq_getElem l default h]

theorem slice_length {l : List α} {a b : ℕ} (hab : a ≤ b) (hb : b ≤ l.length) :
    (slice l a b).length = b - a := by
  simp [slice, List.length_take, List.length_drop]
  omega

theorem slice_eq_map {l : List α} {a b : ℕ} (hab : a ≤ b) (hb : b ≤ l.length) :
    slice l a b = (List.range' a (b - a)).map (fun p => l.getD p default) := by
  apply List.ext_getElem?
  intro n
  rcases lt_or_ge n (b - a) with hn | hn
  · have h1 : n < (slice l a b).length := by rw [slice_length hab hb]; omega
    have h2 : n < ((List.range' a (b - a)).map (fun p => l.getD p default)).length := by
      simp; omega
    rw [List.getElem?_eq_getElem h1, List.getElem?_eq_getElem h2]
    congr 1
    have h3 : a + n < l.length := by omega
    have h4 : n < (List.drop a l).length := by simp [List.length_drop]; omega
    simp only [slice, List.getElem_take, List.getElem_drop]
    rw [List.getElem_map]
    rw [List.getElem_range']
    rw [List.getD_eq_getElem l default (by omega)]
    congr 1
    omega
  · rw [List.getElem?_eq_none, List.getElem?_eq_none]
    · simp; omega
    · rw [slice_length hab hb]; omega

theorem slice_all (l : List α) : slice l 0 l.length = l := by
  simp [slice]

theorem slice_congr {l l2 : List α} {a b : ℕ} (hab : a ≤ b)
    (hb : b ≤ l.length) (hb2 : b ≤ l2.length)
    (h : ∀ p, a ≤ p → p < b → l2.getD p default = l.getD p default) :
    slice l2 a b = slice l a b := by
  rw [slice_eq_map hab hb, slice_eq_map hab hb2]
  apply List.map_congr_left
  intro p hp
  rw [List.mem_range'] at hp
  obtain ⟨i, hi, rfl⟩ := hp
  exact h _ (by omega) (by omega)

theorem slice_split {l : List α} {a c b : ℕ} (hac : a ≤ c) (hcb : c ≤ b)
    (hb : b ≤ l.length) :
    slice l a b = slice l a c ++ slice l c b := by
  rw [slice_eq_map (by omega) hb, slice_eq_map hac (by omega),
    slice_eq_map hcb hb, ← List.map_append]
  congr 1
  have := List.range'_append a (c - a) (b - c) 1
  simp only [one_mul] at this
  rw [show a + (c - a) = c by omega] at this
  rw [show b - a = (b - c) + (c - a) by omega]
  exact this.symm

theorem getD_mem_slice {l : List α} {a p b : ℕ} (hap : a ≤ p) (hpb : p < b)
    (hb : b ≤ l.length) :
    l.getD p default ∈ slice l a b := by
  rw [slice_eq_map (by omega) hb]
  apply List.mem_map_of_mem
  rw [List.mem_range']
  exact ⟨p - a, by omega, by simp; omega⟩

theorem mem_slice {l : List α} {a b : ℕ} {x : α} (hab : a ≤ b) (hb : b ≤ l.length)
    (hx : x ∈ slice l a b) :
    ∃ p, a ≤ p ∧ p < b ∧ l.getD p default = x := by
  rw [slice_eq_map hab hb] at hx
  obtain ⟨p, hp, rfl⟩ := List.mem_map.1 hx
  rw [List.mem_range'] at hp
  obtain ⟨i, hi, rfl⟩ := hp
  exact ⟨a + i, by omega, by omega, by rw [one_mul]⟩

end ListUtil

section SwapSort

variable {α : Type _} [Inhabited α]

theorem perm_swap_middle (x y : α) (A B C : List α) :
    (A ++ (x :: (B ++ y :: C))).Perm (A ++ (y :: (B ++ x :: C))) := by
  exact List.Perm.append_left A ((List.Perm.cons x List.perm_middle).trans
    ((List.Perm.swap y x (B ++ C)).trans (List.Perm.cons y List.perm_middle.symm)))

theorem slice_perm_two_point_lt {l l2 : List α} {i j a b : ℕ}
    (hij : i < j)
    (hai : a ≤ i) (hjb : j < b) (hb : b ≤ l.length) (hb2 : b ≤ l2.length)
    (hoff : ∀ p, p ≠ i → p ≠ j → l2.getD p default = l.getD p default)
    (hvi : l2.getD i default = l.getD j default)
    (hvj : l2.getD j default = l.getD i default) :
    (slice l2 a b).Perm (slice l a b) := by
  have e1 : List.range' a (b - a) = List.range' a (i - a) ++ List.range' i (b - i) := by
    have h := List.range'_append a (i - a) (b - i) 1
    simp only [one_mul] at h
    rw [show a + (i - a) = i by omega] at h
    rw [show b - i + (i - a) = b - a by omega] at h
    exact h.symm
  have e2 : List.range' i (b - i) = i :: List.range' (i + 1) (b - i - 1) := by
    have h := List.range'_succ i (b - i - 1) 1
    rw [show b - i - 1 + 1 = b - i by omega] at h
    simpa using h
  have e3 : List.range' (i + 1) (b - i - 1) =
      List.range' (i + 1) (j - (i + 1)) ++ List.range' j (b - j) := by
    have h := List.range'_append (i + 1) (j - (i + 1)) (b - j) 1
    simp only [one_mul] at h
    rw [show i + 1 + (j - (i + 1)) = j by omega] at h
    rw [show b - j + (j - (i + 1)) = b - i - 1 by omega] at h
    exact h.symm
  have e4 : List.range' j (b - j) = j :: List.range' (j + 1) (b - j - 1) := by
    have h := List.range'_succ j (b - j - 1) 1
    rw [show b - j - 1 + 1 = b - j by omega] at h
    simpa using h
  rw [slice_eq_map (by omega) hb2, slice_eq_map (by omega) hb, e1, e2, e3, e4]
  simp only [List.map_append, List.map_cons]
  have m1 : (List.range' a (i - a)).map (fun p => l2.getD p default) =
      (List.range' a (i - a)).map (fun p => l.getD p default) := by
    apply List.map_congr_left
    intro p hp
    rw [List.mem_range'] at hp
    obtain ⟨t, ht, rfl⟩ := hp
    exact hoff _ (by omega) (by omega)
  have m2 : (List.range' (i + 1) (j - (i + 1))).map (fun p => l2.getD p default) =
      (List.range' (i + 1) (j - (i + 1))).map (fun p => l.getD p default) := by
    apply List.map_congr_left
    intro p hp
    rw [List.mem_range'] at hp
    obtain ⟨t, ht, rfl⟩ := hp
    exact hoff _ (by omega) (by omega)
  have m3 : (List.range' (j + 1) (b - j - 1)).map (fun p => l2.getD p default) =
      (List.range' (j + 1) (b - j - 1)).map (fun p => l.getD p default) := by
    apply List.map_congr_left
    intro p hp
    rw [List.mem_range'] at hp
    obtain ⟨t, ht, rfl⟩ := hp
    exact hoff _ (by omega) (by omega)
  rw [m1, m2, m3, hvi, hvj]
  exact perm_swap_middle _ _ _ _ _

theorem slice_perm_two_point {l l2 : List α} {i j a b : ℕ}
    (hai : a ≤ i) (hib : i < b) (haj : a ≤ j) (hjb : j < b)
    (hb : b ≤ l.length) (hb2 : b ≤ l2.length)
    (hoff : ∀ p, p ≠ i → p ≠ j → l2.getD p default = l.getD p default)
    (hvi : l2.getD i default = l.getD j default)
    (hvj : l2.getD j default = l.getD i default) :
    (slice l2 a b).Perm (slice l a b) := by
  rcases lt_trichotomy i j with h | h | h
  · exact slice_perm_two_point_lt h hai hjb hb hb2 hoff hvi hvj
  · subst h
    have : slice l2 a b = slice l a b := by
      apply slice_congr (by omega) hb hb2
      intro p hp1 hp2
      by_cases hpi : p = i
      · subst hpi; exact hvi
      · exact hoff p hpi hpi
    rw [this]
  · exact slice_perm_two_point_lt h haj hib hb hb2
      (fun p h1 h2 => hoff p h2 h1) hvj hvi

theorem listSwap_length (l : List α) (i j : ℕ) :
    (listSwap l i j).length = l.length := by
  unfold listSwap
  cases h1 : l.get? i <;> cases h2 : l.get? j <;> simp

theorem listSwap_getD_off {l : List α} {i j p : ℕ} (hpi : p ≠ i) (hpj : p ≠ j) :
    (listSwap l i j).getD p default = l.getD p default := by
  unfold listSwap
  cases h1 : l.get? i with
  | none => rfl
  | some x =>
    cases h2 : l.get? j with
    | none => rfl
    | some y =>
      rw [List.getD_eq_getElem?_getD, List.getD_eq_getElem?_getD,
        List.getElem?_set_ne (Ne.symm hpj), List.getElem?_set_ne (Ne.symm hpi)]

theorem listSwap_getD_fst {l : List α} {i j : ℕ} (hi : i < l.length) (hj : j < l.length) :
    (listSwap l i j).getD i default = l.getD j default := by
  unfold listSwap
  rw [get?_eq_some_getD hi, get?_eq_some_getD hj]
  by_cases hij : i = j
  · subst hij
    rw [List.getD_eq_getElem?_getD, List.getElem?_set_self (by simp [hi])]
    rfl
  · rw [List.getD_eq_getElem?_getD, List.getElem?_set_ne (Ne.symm hij),
      List.getElem?_set_self (by simp [hi])]
    rfl

theorem listSwap_getD_snd {l : List α} {i j : ℕ} (hi : i < l.length) (hj : j < l.length) :
    (listSwap l i j).getD j default = l.getD i default := by
  unfold listSwap
  rw [get?_eq_some_getD hi, get?_eq_some_getD hj]
  rw [List.getD_eq_getElem?_getD, List.getElem?_set_self (by simp [hj])]
  rfl

theorem frame_rfl (l : List α) (a b : ℕ) : Frame l l a b :=
  ⟨rfl, fun _ _ => rfl, List.Perm.refl _⟩

theorem frame_trans {l1 l2 l3 : List α} {a b : ℕ}
    (h1 : Frame l1 l2 a b) (h2 : Frame l2 l3 a b) : Frame l1 l3 a b :=
  ⟨h2.1.trans h1.1, fun p hp => (h2.2.1 p hp).trans (h1.2.1 p hp),
    h2.2.2.trans h1.2.2⟩

theorem frame_mono {l l2 : List α} {a b a2 b2 : ℕ} (h : Frame l l2 a b)
    (ha : a2 ≤ a) (hab : a ≤ b) (hb : b ≤ b2) (hb2 : b2 ≤ l.length) :
    Frame l l2 a2 b2 := by
  obtain ⟨hl, hout, hperm⟩ := h
  refine ⟨hl, fun p hp => hout p (by omega), ?_⟩
  have hbl2 : b2 ≤ l2.length := by omega
  rw [slice_split (l := l2) ha (le_trans hab hb) hbl2,
    slice_split (l := l) ha (le_trans hab hb) hb2,
    slice_split (l := l2) hab hb hbl2,
    slice_split (l := l) hab hb hb2]
  have o1 : slice l2 a2 a = slice l a2 a := by
    apply slice_congr ha (by omega) (by omega)
    intro p hp1 hp2
    exact hout p (Or.inl hp2)
  have o2 : slice l2 b b2 = slice l b b2 := by
    apply slice_congr hb hb2 hbl2
    intro p hp1 hp2
    exact hout p (Or.inr hp1)
  rw [o1, o2]
  exact ((hperm.append (List.Perm.refl _)).append_left _)

theorem frame_listSwap {l : List α} {i j a b : ℕ}
    (hai : a ≤ i) (hib : i < b) (haj : a ≤ j) (hjb : j < b) (hb : b ≤ l.length) :
    Frame l (listSwap l i j) a b := by
  have hi : i < l.length := lt_of_lt_of_le hib hb
  have hj : j < l.length := lt_of_lt_of_le hjb hb
  refine ⟨listSwap_length l i j,
    fun p hp => listSwap_getD_off (by omega) (by omega), ?_⟩
  exact slice_perm_two_point hai hib haj hjb hb
    (by rw [listSwap_length]; exact hb)
    (fun p h1 h2 => listSwap_getD_off h1 h2)
    (listSwap_getD_fst hi hj) (listSwap_getD_snd hi hj)

theorem sortRange_length {key : α → ℚ} {l : List α} {a b : ℕ}
    (hab : a ≤ b) (hb : b ≤ l.length) :
    (sortRange key l a b).length = l.length := by
  simp [sortRange, List.length_insertionSort, slice_length hab hb]
  omega

theorem sortRange_getD_off {key : α → ℚ} {l : List α} {a b p : ℕ}
    (hab : a ≤ b) (hb : b ≤ l.length) (hp : p < a ∨ b ≤ p) :
    (sortRange key l a b).getD p default = l.getD p default := by
  have hta : (l.take a).length = a := by simp; omega
  have hsl : (List.insertionSort (fun x y => key x ≤ key y) (slice l a b)).length = b - a := by
    rw [List.length_insertionSort, slice_length hab hb]
  have hAS : (l.take a ++ List.insertionSort (fun x y => key x ≤ key y) (slice l a b)).length
      = b := by
    rw [List.length_append, hta, hsl]; omega
  rcases hp with hp | hp
  · rw [List.getD_eq_getElem?_getD, List.getD_eq_getElem?_getD, sortRange,
      List.getElem?_append_left (by rw [hAS]; omega),
      List.getElem?_append_left (by rw [hta]; omega),
      List.getElem?_take, if_pos hp]
  · have h1 : (sortRange key l a b)[p]? = (l.drop b)[p - b]? := by
      unfold sortRange
      rw [List.getElem?_append_right (by rw [hAS]; omega), hAS]
    rw [List.getD_eq_getElem?_getD, List.getD_eq_getElem?_getD, h1,
      List.getElem?_drop, show b + (p - b) = p from by omega]

theorem sortRange_slice {key : α → ℚ} {l : List α} {a b : ℕ}
    (hab : a ≤ b) (hb : b ≤ l.length) :
    slice (sortRange key l a b) a b
      = List.insertionSort (fun x y => key x ≤ key y) (slice l a b) := by
  have hta : (l.take a).length = a := by simp; omega
  have hsl : (List.insertionSort (fun x y => key x ≤ key y) (slice l a b)).length = b - a := by
    rw [List.length_insertionSort, slice_length hab hb]
  have key1 : List.drop a (sortRange key l a b)
      = List.insertionSort (fun x y => key x ≤ key y) (slice l a b) ++ List.drop b l := by
    unfold sortRange
    rw [List.append_assoc]
    exact List.drop_left' hta
  show (List.drop a (sortRange key l a b)).take (b - a) = _
  rw [key1]
  exact List.take_left' hsl

theorem sortRange_frame {key : α → ℚ} {l : List α} {a b : ℕ}
    (hab : a ≤ b) (hb : b ≤ l.length) :
    Frame l (sortRange key l a b) a b := by
  refine ⟨sortRange_length hab hb, fun p hp => sortRange_getD_off hab hb hp, ?_⟩
  rw [sortRange_slice hab hb]
  exact List.perm_insertionSort _ _

theorem sortRange_sorted_keys {key : α → ℚ} {l : List α} {a b p q : ℕ}
    (hap : a ≤ p) (hpq : p < q) (hqb : q < b) (hb : b ≤ l.length) :
    key ((sortRange key l a b).getD p default)
      ≤ key ((sortRange key l a b).getD q default) := by
  have hab : a ≤ b := by omega
  haveI ht : IsTotal α (fun x y => key x ≤ key y) := ⟨fun x y => le_total _ _⟩
  haveI htr : IsTrans α (fun x y => key x ≤ key y) :=
    ⟨fun x y z h1 h2 => le_trans h1 h2⟩
  have hsorted : List.Sorted (fun x y => key x ≤ key y)
      (slice (sortRange key l a b) a b) := by
    rw [sortRange_slice hab hb]
    exact List.sorted_insertionSort _ _
  have hlen2 : b ≤ (sortRange key l a b).length := by
    rw [sortRange_length hab hb]; exact hb
  have hmap := slice_eq_map (l := sortRange key l a b) (a := a) (b := b) hab hlen2
  rw [hmap] at hsorted
  rw [List.Sorted, List.pairwise_iff_getElem] at hsorted
  have hplen : p - a < ((List.range' a (b - a)).map
      (fun t => (sortRange key l a b).getD t default)).length := by simp; omega
  have hqlen : q - a < ((List.range' a (b - a)).map
      (fun t => (sortRange key l a b).getD t default)).length := by simp; omega
  have := hsorted (p - a) (q - a) hplen hqlen (by omega)
  simpa [List.getElem_range', show a + (p - a) = p by omega,
    show a + (q - a) = q by omega] using this

end SwapSort

section HeapLemmas

theorem heapPush_perm (h : List HeapItem) (x : HeapItem) :
    (heapPush h x).Perm (x :: h) := by
  induction h with
  | nil => exact List.Perm.refl _
  | cons y ys ih =>
    simp only [heapPush]
    by_cases hc : y.dist < x.dist
    · rw [if_pos hc]
    · rw [if_neg hc]
      exact (ih.cons y).trans (List.Perm.swap x y ys)

theorem heapPush_length (h : List HeapItem) (x : HeapItem) :
    (heapPush h x).length = h.length + 1 := by
  have := (heapPush_perm h x).length_eq
  simpa using this

theorem heapPush_mem {h : List HeapItem} {x z : HeapItem}
    (hz : z ∈ heapPush h x) : z = x ∨ z ∈ h := by
  have := (heapPush_perm h x).mem_iff.1 hz
  simpa using this

theorem heapPush_ne_nil (h : List HeapItem) (x : HeapItem) :
    heapPush h x ≠ [] := by
  intro hcon
  have := heapPush_length h x
  rw [hcon] at this
  simp at this

theorem heapPush_sorted {h : List HeapItem} {x : HeapItem}
    (hs : heapSortedDesc h) : heapSortedDesc (heapPush h x) := by
  induction h with
  | nil => simp [heapPush, heapSortedDesc]
  | cons y ys ih =>
    rw [heapSortedDesc, List.pairwise_cons] at hs
    obtain ⟨hy, hys⟩ := hs
    simp only [heapPush]
    by_cases hc : y.dist < x.dist
    · rw [if_pos hc]
      rw [heapSortedDesc, List.pairwise_cons]
      constructor
      · intro z hz
        rcases List.mem_cons.1 hz with rfl | hz
        · exact le_of_lt hc
        · exact le_trans (hy z hz) (le_of_lt hc)
      · rw [heapSortedDesc, List.pairwise_cons] at *
        exact ⟨hy, hys⟩
    · rw [if_neg hc]
      rw [heapSortedDesc, List.pairwise_cons]
      constructor
      · intro z hz
        rcases heapPush_mem hz with rfl | hz
        · exact le_of_not_lt hc
        · exact hy z hz
      · exact ih hys

end HeapLemmas

section ItemLemmas

variable {T : Type} [Inhabited T]

theorem makeItems_length (xs : List T) (i : ℕ) :
    (makeItems xs i).length = xs.length := by
  induction xs generalizing i with
  | nil => rfl
  | cons hd tl ih => simp [makeItems, ih]

theorem makeItems_mem {xs : List T} {i0 : ℕ} {x : T} {i : ℕ}
    (h : (x, i) ∈ makeItems xs i0) :
    i0 ≤ i ∧ i - i0 < xs.length ∧ xs.getD (i - i0) default = x := by
  induction xs generalizing i0 with
  | nil => simp [makeItems] at h
  | cons hd tl ih =>
    simp only [makeItems, List.mem_cons, Prod.mk.injEq] at h
    rcases h with ⟨rfl, rfl⟩ | h
    · refine ⟨le_refl _, by simp, ?_⟩
      simp
    · obtain ⟨h1, h2, h3⟩ := ih h
      refine ⟨by omega, by simp; omega, ?_⟩
      rw [show i - i0 = (i - (i0 + 1)) + 1 by omega]
      simpa using h3

end ItemLemmas

section ShapeLemmas

variable {T : Type} [Inhabited T] {d : T → T → ℚ}

theorem shape_mono {items : List (T × ℕ)} {nodes : List Node}
    {a b : ℕ} {idx : Int} {lo hi a2 b2 : ℕ} (h : Shape d items nodes a b idx lo hi)
    (ha : a2 ≤ a) (hb : b ≤ b2) :
    Shape d items nodes a2 b2 idx lo hi := by
  induction h with
  | leaf lo => exact Shape.leaf _ _ _
  | node j lo hi m nd hlo hm1 hm2 hja hjb hget hitem hlen hleft hright hL hR ihL ihR =>
    exact Shape.node _ _ j lo hi m nd hlo hm1 hm2 (by omega) (by omega)
      hget hitem hlen hleft hright ihL ihR

theorem shape_congr_nodes {items : List (T × ℕ)} {nodes nodes2 : List Node}
    {a b : ℕ} {idx : Int} {lo hi : ℕ} (h : Shape d items nodes a b idx lo hi)
    (hn : ∀ i, a ≤ i → i < b → nodes2.get? i = nodes.get? i) :
    Shape d items nodes2 a b idx lo hi := by
  induction h with
  | leaf lo => exact Shape.leaf _ _ _
  | node j lo hi m nd hlo hm1 hm2 hja hjb hget hitem hlen hleft hright hL hR ihL ihR =>
    exact Shape.node _ _ j lo hi m nd hlo hm1 hm2 hja hjb
      ((hn j hja hjb).trans hget) hitem hlen hleft hright ihL ihR

theorem shape_congr_items {items items2 : List (T × ℕ)} {nodes : List Node}
    {a b : ℕ} {idx : Int} {lo hi : ℕ} (h : Shape d items nodes a b idx lo hi)
    (hlen2 : items2.length = items.length) :
    (∀ p, lo ≤ p → p < hi → items2.getD p default = items.getD p default) →
    Shape d items2 nodes a b idx lo hi := by
  induction h with
  | leaf lo => exact fun _ => Shape.leaf _ _ _
  | node j lo hi m nd hlo hm1 hm2 hja hjb hget hitem hlen hleft hright hL hR ihL ihR =>
    intro hit
    refine Shape.node _ _ j lo hi m nd hlo hm1 hm2 hja hjb hget hitem (by omega) ?_ ?_
      (ihL ?_) (ihR ?_)
    · intro p hp1 hp2
      rw [hit lo (le_refl _) hlo, hit p (by omega) (by omega)]
      exact hleft p hp1 hp2
    · intro p hp1 hp2
      rw [hit lo (le_refl _) hlo, hit p (by omega) (by omega)]
      exact hright p hp1 hp2
    · intro p hp1 hp2
      exact hit p (by omega) (by omega)
    · intro p hp1 hp2
      exact hit p (by omega) (by omega)

end ShapeLemmas

section AppendLemmas

variable {α : Type _} [Inhabited α]

theorem get?_append_cons (l1 : List α) (x : α) (l2 : List α) :
    (l1 ++ x :: l2).get? l1.length = some x := by
  rw [List.get?_eq_getElem?, List.getElem?_append_right (le_refl _)]
  simp

theorem getD_append_cons (l1 : List α) (x : α) (l2 : List α) :
    (l1 ++ x :: l2).getD l1.length default = x := by
  rw [getD_eq_get?, get?_append_cons]
  rfl

theorem set_append_cons (l1 : List α) (x y : α) (l2 : List α) :
    (l1 ++ x :: l2).set l1.length y = l1 ++ y :: l2 := by
  rw [List.set_append, if_neg (by omega)]
  simp

theorem get?_append_cons_lt {l1 : List α} {x : α} {l2 : List α} {i : ℕ}
    (h : i < l1.length) : (l1 ++ x :: l2).get? i = l1.get? i := by
  rw [List.get?_eq_getElem?, List.get?_eq_getElem?, List.getElem?_append_left h]

theorem get?_set_ne {l : List α} {i j : ℕ} {x : α} (h : i ≠ j) :
    (l.set i x).get? j = l.get? j := by
  rw [List.get?_eq_getElem?, List.get?_eq_getElem?, List.getElem?_set_ne h]

end AppendLemmas

section BuildLemmas

variable {T : Type} [Inhabited T]

theorem buildSpec_leaf (d : T → T → ℚ) (f : ℕ → ℕ) (st : BuildState T) (lo hi : ℕ)
    (hhl : hi ≤ lo) : BuildSpec d f st lo hi (st, Node.Leaf) := by
  unfold BuildSpec
  refine ⟨frame_rfl _ _ _,
    ⟨[], by simp, by simp only [List.length_nil]; omega,
      by rw [show hi - lo = 0 by omega]; simp⟩,
    by rw [if_neg (by omega)], ?_, ?_, fun hcon => absurd hcon (by omega)⟩
  · intro hle
    rcases Nat.le_antisymm hle hhl with rfl
    exact Shape.leaf _ _ _
  · intro jj hj1 hj2
    exact absurd hj2 (by simp only [show (st, Node.Leaf).1 = st from rfl]; omega)

theorem buildSpec_single (d : T → T → ℚ) (f : ℕ → ℕ) (st : BuildState T) (lo hi : ℕ)
    (h2 : hi = lo + 1) (hlen : hi ≤ st.items.length) :
    BuildSpec d f st lo hi ((makeNode st lo).1, ((makeNode st lo).2 : Int)) := by
  subst h2
  have e1 : (makeNode st lo).1.items = st.items := rfl
  have e2 : (makeNode st lo).1.nodes = st.nodes ++ [⟨lo, 0, Node.Leaf, Node.Leaf⟩] := rfl
  have e3 : (makeNode st lo).2 = st.nodes.length := rfl
  have hroot : Shape d (makeNode st lo).1.items (makeNode st lo).1.nodes
      st.nodes.length (makeNode st lo).1.nodes.length
      ((st.nodes.length : ℕ) : Int) lo (lo + 1) := by
    refine Shape.node _ _ st.nodes.length lo (lo + 1) (lo + 1)
      ⟨lo, 0, Node.Leaf, Node.Leaf⟩ (by omega) (by omega) (by omega)
      (le_refl _) (by rw [e2]; simp) ?_ rfl (by rw [e1]; exact hlen)
      (by intro p hp1 hp2; omega) (by intro p hp1 hp2; omega)
      (Shape.leaf _ _ _) (Shape.leaf _ _ _)
    rw [e2]
    exact get?_append_cons _ _ _
  unfold BuildSpec
  refine ⟨by rw [e1]; exact frame_rfl _ _ _,
    ⟨[⟨lo, 0, Node.Leaf, Node.Leaf⟩], e2, by simp, ?_⟩,
    by rw [if_pos (by omega), e3], fun _ => hroot, ?_,
    fun hcon => absurd hcon (by omega)⟩
  · rw [show lo + 1 - lo = 1 by omega]
    simp [List.range'_succ]
  · intro jj hj1 hj2
    rw [e2, List.length_append, List.length_cons, List.length_nil] at hj2
    have hjj : jj = st.nodes.length := by omega
    subst hjj
    exact ⟨lo, lo + 1, le_refl _, le_refl _, hroot⟩

theorem buildSpec_step (d : T → T → ℚ) (f : ℕ → ℕ) (fuel : ℕ)
    (st : BuildState T) (lo hi : ℕ)
    (hge : lo + 2 ≤ hi) (hlen : hi ≤ st.items.length)
    (ih : ∀ (st2 : BuildState T) (lo2 hi2 : ℕ), hi2 - lo2 ≤ fuel →
      hi2 ≤ st2.items.length → BuildSpec d f st2 lo2 hi2 (makeTreeGo d f fuel st2 lo2 hi2))
    (hfl : hi - lo ≤ fuel + 1) :
    BuildSpec d f st lo hi (makeTreeGo d f (fuel + 1) st lo hi) := by
  have hlo : lo < hi := by omega
  set m := (hi + lo) / 2 with hm
  have hm1 : lo + 1 ≤ m := by omega
  have hm2 : m < hi := by omega
  set st1 := selectRoot f st lo hi with hst1
  set st2 := partitionByDistance d st1 lo m hi with hst2
  set st3 := (makeNode st2 lo).1 with hst3
  set j := (makeNode st2 lo).2 with hjdef
  set thr := d (st3.items.getD lo default).1 (st3.items.getD m default).1 with hthr
  set st4 := setNode st3 j { st3.nodes.getD j default with threshold := thr } with hst4
  set rl := makeTreeGo d f fuel st4 (lo + 1) m with hrl
  set st6 := setNode rl.1 j { rl.1.nodes.getD j default with left := rl.2 } with hst6
  set rr := makeTreeGo d f fuel st6 m hi with hrr
  set st8 := setNode rr.1 j { rr.1.nodes.getD j default with right := rr.2 } with hst8
  have heq : makeTreeGo d f (fuel + 1) st lo hi = (st8, (j : Int)) := by
    rw [makeTreeGo, if_neg (by omega), if_neg (by omega)]
  rw [heq]
  -- stage equalities
  have hjE : j = st.nodes.length := rfl
  have hF1 : Frame st.items st1.items lo hi := by
    rw [hst1]
    show Frame st.items (listSwap st.items lo (lo + f st.pos % (hi - lo))) lo hi
    exact frame_listSwap (le_refl _) hlo (by omega)
      (by have := Nat.mod_lt (f st.pos) (show 0 < hi - lo by omega); omega) hlen
  have h1len : st1.items.length = st.items.length := hF1.1
  have h1lenr : hi ≤ st1.items.length := by omega
  have hF2pre : Frame st1.items st2.items (lo + 1) hi := by
    rw [hst2]
    exact sortRange_frame (by omega) h1lenr
  have hF2 : Frame st1.items st2.items lo hi :=
    frame_mono hF2pre (by omega) (by omega) (le_refl _) h1lenr
  have h2len : st2.items.length = st.items.length := by rw [hF2.1, h1len]
  have hF12 : Frame st.items st2.items lo hi := frame_trans hF1 hF2
  have h3nodes : st3.nodes = st.nodes ++ [(⟨lo, 0, Node.Leaf, Node.Leaf⟩ : Node)] := rfl
  have h4items : st4.items = st2.items := rfl
  have h4nodes : st4.nodes = st.nodes ++ [(⟨lo, thr, Node.Leaf, Node.Leaf⟩ : Node)] := by
    show st3.nodes.set j { st3.nodes.getD j default with threshold := thr } = _
    rw [h3nodes, hjE, getD_append_cons, set_append_cons]
  have hlen4n : st4.nodes.length = st.nodes.length + 1 := by rw [h4nodes]; simp
  have h4ilen : st4.items.length = st.items.length := by rw [h4items, h2len]
  -- left recursion
  have hihL : BuildSpec d f st4 (lo + 1) m rl := by
    rw [hrl]
    exact ih st4 (lo + 1) m (by omega) (by rw [h4ilen]; omega)
  obtain ⟨FL, ⟨sufL, eLnodes, eLlen, eLperm⟩, hrl2, hShL, hPNL, hThL⟩ := hihL
  have h5ilen : rl.1.items.length = st.items.length := by rw [FL.1, h4ilen]
  have hlen5n : rl.1.nodes.length = st.nodes.length + 1 + sufL.length := by
    rw [eLnodes, List.length_append, hlen4n]
  have h6items : st6.items = rl.1.items := rfl
  have h6nodes : st6.nodes = st.nodes ++ (⟨lo, thr, rl.2, Node.Leaf⟩ : Node) :: sufL := by
    show rl.1.nodes.set j { rl.1.nodes.getD j default with left := rl.2 } = _
    rw [eLnodes, h4nodes, hjE, List.append_assoc, List.singleton_append,
      getD_append_cons, set_append_cons]
  have hlen6n : st6.nodes.length = rl.1.nodes.length := by
    show (rl.1.nodes.set j _).length = _
    simp
  have h6ilen : st6.items.length = st.items.length := by rw [h6items, h5ilen]
  -- right recursion
  have hihR : BuildSpec d f st6 m hi rr := by
    rw [hrr]
    exact ih st6 m hi (by omega) (by rw [h6ilen]; omega)
  obtain ⟨FR, ⟨sufR, eRnodes, eRlen, eRperm⟩, hrr2, hShR, hPNR, hThR⟩ := hihR
  have h7ilen : rr.1.items.length = st.items.length := by rw [FR.1, h6ilen]
  have hlen7n : rr.1.nodes.length = st6.nodes.length + sufR.length := by
    rw [eRnodes, List.length_append]
  have h7nodes : rr.1.nodes
      = st.nodes ++ (⟨lo, thr, rl.2, Node.Leaf⟩ : Node) :: (sufL ++ sufR) := by
    rw [eRnodes, h6nodes, List.append_assoc, List.cons_append]
  have h8items : st8.items = rr.1.items := rfl
  have h8nodes : st8.nodes
      = st.nodes ++ (⟨lo, thr, rl.2, rr.2⟩ : Node) :: (sufL ++ sufR) := by
    show rr.1.nodes.set j { rr.1.nodes.getD j default with right := rr.2 } = _
    rw [h7nodes, hjE, getD_append_cons, set_append_cons]
  have hlen8n : st8.nodes.length = rr.1.nodes.length := by
    show (rr.1.nodes.set j _).length = _
    simp
  have h8ilen : st8.items.length = st.items.length := by rw [h8items, h7ilen]
  -- items frame for the whole range
  have hF3 : Frame st4.items rl.1.items lo hi :=
    frame_mono FL (by omega) (by omega) (by omega) (by rw [h4ilen]; omega)
  have hF4 : Frame st6.items rr.1.items lo hi :=
    frame_mono FR (by omega) (by omega) (le_refl _) (by rw [h6ilen]; omega)
  have hFitems : Frame st.items st8.items lo hi :=
    frame_trans (frame_trans hF12 hF3) hF4
  -- key facts for the threshold bounds
  have hgetlo65 : st6.items.getD lo default = rl.1.items.getD lo default := rfl
  have hgetlo8 : st8.items.getD lo default = st2.items.getD lo default := by
    have e1 : st8.items.getD lo default = st6.items.getD lo default :=
      FR.2.1 lo (Or.inl (by omega))
    have e2 : rl.1.items.getD lo default = st4.items.getD lo default :=
      FL.2.1 lo (Or.inl (by omega))
    rw [e1, hgetlo65, e2, h4items]
  have hgetlo21 : st2.items.getD lo default = st1.items.getD lo default :=
    hF2pre.2.1 lo (Or.inl (by omega))
  have hthr_key : thr
      = d (st1.items.getD lo default).1 (st2.items.getD m default).1 := by
    rw [hthr]
    rw [show st3.items = st2.items from rfl, hgetlo21]
  have hsortkeys : ∀ p q : ℕ, lo + 1 ≤ p → p < q → q < hi →
      d (st1.items.getD lo default).1 (st2.items.getD p default).1
        ≤ d (st1.items.getD lo default).1 (st2.items.getD q default).1 := by
    intro p q hp hpq hq
    have := @sortRange_sorted_keys _ _
      (fun pr => d (st1.items.getD lo default).1 pr.1)
      st1.items (lo + 1) hi p q hp hpq hq h1lenr
    exact this
  have hleft : ∀ p, lo + 1 ≤ p → p < m →
      d (st8.items.getD lo default).1 (st8.items.getD p default).1 ≤ thr := by
    intro p hp1 hp2
    have hv : st8.items.getD p default = rl.1.items.getD p default :=
      FR.2.1 p (Or.inl hp2)
    have hmem0 : rl.1.items.getD p default ∈ slice rl.1.items (lo + 1) m :=
      getD_mem_slice hp1 hp2 (by omega)
    have hmem : rl.1.items.getD p default ∈ slice st4.items (lo + 1) m :=
      FL.2.2.mem_iff.1 hmem0
    obtain ⟨p2, hp21, hp22, hp2v⟩ := mem_slice (by omega) (by rw [h4ilen]; omega) hmem
    rw [hgetlo8, hgetlo21, hv, ← hp2v, h4items, hthr_key]
    exact hsortkeys p2 m hp21 hp22 hm2
  have hright : ∀ p, m ≤ p → p < hi →
      thr ≤ d (st8.items.getD lo default).1 (st8.items.getD p default).1 := by
    intro p hp1 hp2
    have hmem0 : st8.items.getD p default ∈ slice rr.1.items m hi := by
      rw [h8items]
      exact getD_mem_slice hp1 hp2 (by omega)
    have hmem1 : st8.items.getD p default ∈ slice st6.items m hi :=
      FR.2.2.mem_iff.1 hmem0
    have hslice65 : slice st6.items m hi = slice st4.items m hi := by
      apply slice_congr (by omega) (by rw [h4ilen]; omega) (by rw [h6ilen]; omega)
      intro p3 hp31 hp32
      exact FL.2.1 p3 (Or.inr hp31)
    rw [hslice65] at hmem1
    obtain ⟨p2, hp21, hp22, hp2v⟩ := mem_slice (by omega) (by rw [h4ilen]; omega) hmem1
    rw [hgetlo8, hgetlo21, ← hp2v, h4items, hthr_key]
    rcases Nat.eq_or_lt_of_le hp21 with rfl | hlt
    · exact le_refl _
    · exact hsortkeys m p2 (by omega) hlt hp22
  -- node lookup stability
  have hnodes_left : ∀ i, st.nodes.length + 1 ≤ i → i < rl.1.nodes.length →
      st8.nodes.get? i = rl.1.nodes.get? i := by
    intro i hi1 hi2
    have e1 : st8.nodes.get? i = rr.1.nodes.get? i := by
      show (rr.1.nodes.set j _).get? i = _
      exact get?_set_ne (by omega)
    have e2 : rr.1.nodes.get? i = st6.nodes.get? i := by
      rw [eRnodes]
      rw [List.get?_eq_getElem?, List.get?_eq_getElem?,
        List.getElem?_append_left (by omega)]
    have e3 : st6.nodes.get? i = rl.1.nodes.get? i := by
      show (rl.1.nodes.set j _).get? i = _
      exact get?_set_ne (by omega)
    rw [e1, e2, e3]
  have hnodes_right : ∀ i, st6.nodes.length ≤ i →
      st8.nodes.get? i = rr.1.nodes.get? i := by
    intro i hi1
    show (rr.1.nodes.set j _).get? i = _
    exact get?_set_ne (by omega)
  -- transports of subtree shapes into the final state
  have transportL : ∀ (idx : Int) (lo2 hi2 : ℕ), lo + 1 ≤ lo2 → hi2 ≤ m →
      Shape d rl.1.items rl.1.nodes (st.nodes.length + 1) rl.1.nodes.length idx lo2 hi2 →
      Shape d st8.items st8.nodes st.nodes.length st8.nodes.length idx lo2 hi2 := by
    intro idx lo2 hi2 hlo2 hhi2 hsh
    have hitems2 : ∀ p, lo2 ≤ p → p < hi2 →
        st8.items.getD p default = rl.1.items.getD p default := by
      intro p hp1 hp2
      have := FR.2.1 p (Or.inl (by omega))
      rw [h8items]
      exact this
    have hlen2 : st8.items.length = rl.1.items.length := by rw [h8ilen, h5ilen]
    have s1 := shape_congr_items hsh hlen2 hitems2
    have s2 := shape_congr_nodes s1 (fun i h1 h2 => hnodes_left i h1 h2)
    exact shape_mono s2 (by omega) (by omega)
  have transportR : ∀ (idx : Int) (lo2 hi2 : ℕ),
      Shape d rr.1.items rr.1.nodes st6.nodes.length rr.1.nodes.length idx lo2 hi2 →
      Shape d st8.items st8.nodes st.nodes.length st8.nodes.length idx lo2 hi2 := by
    intro idx lo2 hi2 hsh
    have hlen2 : st8.items.length = rr.1.items.length := by rw [h8ilen, h7ilen]
    have s1 := shape_congr_items hsh hlen2 (fun p _ _ => by rw [h8items])
    have s2 := shape_congr_nodes s1 (fun i h1 h2 => hnodes_right i h1)
    exact shape_mono s2 (by omega) (by omega)
  -- the root shape
  have hrootget : st8.nodes.get? st.nodes.length
      = some ⟨lo, thr, rl.2, rr.2⟩ := by
    rw [h8nodes]
    exact get?_append_cons _ _ _
  have hShL4 : Shape d rl.1.items rl.1.nodes (st.nodes.length + 1)
      rl.1.nodes.length rl.2 (lo + 1) m := by
    have := hShL (by omega)
    rw [hlen4n] at this
    exact this
  have hShR6 : Shape d rr.1.items rr.1.nodes st6.nodes.length
      rr.1.nodes.length rr.2 m hi := hShR (by omega)
  have hLfinal : Shape d st8.items st8.nodes st.nodes.length st8.nodes.length
      rl.2 (lo + 1) m := transportL rl.2 (lo + 1) m (le_refl _) (le_refl _) hShL4
  have hRfinal : Shape d st8.items st8.nodes st.nodes.length st8.nodes.length
      rr.2 m hi := transportR rr.2 m hi hShR6
  have hroot : Shape d st8.items st8.nodes st.nodes.length st8.nodes.length
      ((st.nodes.length : ℕ) : Int) lo hi := by
    refine Shape.node _ _ st.nodes.length lo hi m ⟨lo, thr, rl.2, rr.2⟩
      hlo hm1 (le_of_lt hm2) (le_refl _) (by omega) hrootget rfl
      (by rw [h8ilen]; exact hlen) hleft hright hLfinal hRfinal
  -- assemble
  refine ⟨hFitems, ?_, ?_, ?_, ?_, ?_⟩
  · refine ⟨(⟨lo, thr, rl.2, rr.2⟩ : Node) :: (sufL ++ sufR), h8nodes, ?_, ?_⟩
    · simp only [List.length_cons, List.length_append]
      omega
    · show (((⟨lo, thr, rl.2, rr.2⟩ : Node) :: (sufL ++ sufR)).map
        (fun nd => nd.item)).Perm (List.range' lo (hi - lo))
      rw [List.map_cons, List.map_append]
      have hperm1 : ((sufL.map fun nd => nd.item) ++ (sufR.map fun nd => nd.item)).Perm
          (List.range' (lo + 1) (m - (lo + 1)) ++ List.range' m (hi - m)) :=
        eLperm.append eRperm
      have hranges : List.range' (lo + 1) (m - (lo + 1)) ++ List.range' m (hi - m)
          = List.range' (lo + 1) (hi - (lo + 1)) := by
        have h := List.range'_append (lo + 1) (m - (lo + 1)) (hi - m) 1
        simp only [one_mul] at h
        rw [show lo + 1 + (m - (lo + 1)) = m by omega] at h
        rw [show hi - m + (m - (lo + 1)) = hi - (lo + 1) by omega] at h
        exact h
      have hrange2 : List.range' lo (hi - lo)
          = lo :: List.range' (lo + 1) (hi - (lo + 1)) := by
        have h := List.range'_succ lo (hi - (lo + 1)) 1
        rw [show hi - (lo + 1) + 1 = hi - lo by omega] at h
        simpa using h
      rw [hrange2]
      exact (hperm1.trans (by rw [hranges])).cons _
  · show (j : Int) = if lo < hi then (st.nodes.length : Int) else Node.Leaf
    rw [if_pos hlo, hjE]
  · intro _
    have : (j : Int) = ((st.nodes.length : ℕ) : Int) := by rw [hjE]
    rw [this]
    exact hroot
  · intro jj hj1 hj2
    have hj2n : jj < st8.nodes.length := hj2
    have hj2' : jj < rr.1.nodes.length := by omega
    rcases Nat.lt_or_ge jj (st.nodes.length + 1) with hcase | hcase
    · have : jj = st.nodes.length := by omega
      subst this
      exact ⟨lo, hi, le_refl _, le_refl _, hroot⟩
    · rcases Nat.lt_or_ge jj rl.1.nodes.length with hcase2 | hcase2
      · obtain ⟨lo2, hi2, hlo2, hhi2, hsh⟩ := hPNL jj (by omega) hcase2
        rw [hlen4n] at hsh
        exact ⟨lo2, hi2, by omega, by omega,
          transportL (jj : Int) lo2 hi2 hlo2 hhi2 hsh⟩
      · obtain ⟨lo2, hi2, hlo2, hhi2, hsh⟩ := hPNR jj (by omega) hj2'
        exact ⟨lo2, hi2, by omega, by omega,
          transportR (jj : Int) lo2 hi2 hsh⟩
  · intro _
    show (st8.nodes.getD st.nodes.length default).threshold = _
    rw [h8nodes, getD_append_cons]
    rfl

theorem makeTreeGo_spec (d : T → T → ℚ) (f : ℕ → ℕ) :
    ∀ (fuel : ℕ) (st : BuildState T) (lo hi : ℕ), hi - lo ≤ fuel →
      hi ≤ st.items.length → BuildSpec d f st lo hi (makeTreeGo d f fuel st lo hi) := by
  intro fuel
  induction fuel with
  | zero =>
    intro st lo hi hfl hlen
    show BuildSpec d f st lo hi (st, Node.Leaf)
    exact buildSpec_leaf d f st lo hi (by omega)
  | succ fuel ih =>
    intro st lo hi hfl hlen
    by_cases h1 : hi ≤ lo
    · have heq : makeTreeGo d f (fuel + 1) st lo hi = (st, Node.Leaf) := by
        rw [makeTreeGo, if_pos h1]
      rw [heq]
      exact buildSpec_leaf d f st lo hi h1
    · by_cases h2 : hi = lo + 1
      · have heq : makeTreeGo d f (fuel + 1) st lo hi
            = ((makeNode st lo).1, ((makeNode st lo).2 : Int)) := by
          rw [makeTreeGo, if_neg h1, if_pos h2]
        rw [heq]
        exact buildSpec_single d f st lo hi h2 hlen
      · exact buildSpec_step d f fuel st lo hi (by omega) hlen ih hfl

theorem makeTree_spec (d : T → T → ℚ) (f : ℕ → ℕ) (st : BuildState T)
    (lo hi : ℕ) (hlen : hi ≤ st.items.length) :
    BuildSpec d f st lo hi (makeTree d f st lo hi) :=
  makeTreeGo_spec d f (hi - lo) st lo hi (le_refl _) hlen

theorem build_spec (d : T → T → ℚ) (f : ℕ → ℕ) (xs : List T) :
    (VpTree.build d f xs).items.length = xs.length ∧
    (VpTree.build d f xs).items.Perm (makeItems xs 0) ∧
    (VpTree.build d f xs).nodes.length = xs.length ∧
    (((VpTree.build d f xs).nodes.map (fun nd => nd.item)).Perm
      (List.range' 0 xs.length)) ∧
    (xs ≠ [] → Shape d (VpTree.build d f xs).items (VpTree.build d f xs).nodes
      0 (VpTree.build d f xs).nodes.length ((0 : ℕ) : Int) 0 xs.length) ∧
    (∀ jj, jj < (VpTree.build d f xs).nodes.length → ∃ lo2 hi2, hi2 ≤ xs.length ∧
      Shape d (VpTree.build d f xs).items (VpTree.build d f xs).nodes
        0 (VpTree.build d f xs).nodes.length (jj : Int) lo2 hi2) := by
  have hml := makeItems_length xs 0
  have hspec := makeTree_spec d f ⟨makeItems xs 0, [], 0⟩ 0 (makeItems xs 0).length
    (le_refl _)
  obtain ⟨hF, ⟨suf, hnodes, hsuflen, hperm⟩, hres2, hshape, hpernode, hthresh⟩ := hspec
  set r := makeTree d f ⟨makeItems xs 0, [], 0⟩ 0 (makeItems xs 0).length with hr
  have hti : (VpTree.build d f xs).items = r.1.items := rfl
  have htn : (VpTree.build d f xs).nodes = r.1.nodes := rfl
  have hilen : r.1.items.length = xs.length := by
    have := hF.1
    simp only at this
    omega
  have hnlen : r.1.nodes.length = xs.length := by
    rw [hnodes]
    simp only [List.nil_append, List.length_nil]
    omega
  refine ⟨by rw [hti, hilen], ?_, by rw [htn, hnlen], ?_, ?_, ?_⟩
  · rw [hti]
    have hperm2 := hF.2.2
    have e1 : slice r.1.items 0 (makeItems xs 0).length = r.1.items := by
      rw [show (makeItems xs 0).length = r.1.items.length by omega]
      exact slice_all _
    have e2 : slice (⟨makeItems xs 0, [], 0⟩ : BuildState T).items 0
        (makeItems xs 0).length = makeItems xs 0 := slice_all _
    rw [e1, e2] at hperm2
    exact hperm2
  · rw [htn, hnodes]
    simp only [List.nil_append]
    rw [show xs.length = (makeItems xs 0).length - 0 by omega]
    exact hperm
  · intro hne
    have hpos : 0 < (makeItems xs 0).length := by
      cases xs with
      | nil => exact absurd rfl hne
      | cons a l => simp [makeItems]
    have := hshape (by omega)
    rw [hres2, if_pos hpos] at this
    rw [hti, htn]
    have e0 : ((⟨makeItems xs 0, [], 0⟩ : BuildState T).nodes.length : Int)
        = ((0 : ℕ) : Int) := rfl
    rw [e0] at this
    rw [show xs.length = (makeItems xs 0).length from hml.symm]
    exact shape_mono this (by omega) (le_refl _)
  · intro jj hjj
    rw [htn] at hjj
    obtain ⟨lo2, hi2, _, hhi2, hsh⟩ := hpernode jj (by simp) hjj
    refine ⟨lo2, hi2, by omega, ?_⟩
    rw [hti, htn]
    exact shape_mono hsh (by simp) (le_refl _)

end BuildLemmas

section SearchLemmas

variable {T : Type} [Inhabited T]

theorem shape_same_range {d : T → T → ℚ} {items : List (T × ℕ)} {nodes : List Node}
    {a b : ℕ} {idx : Int} {lo : ℕ} (h : Shape d items nodes a b idx lo lo) :
    idx = Node.Leaf := by
  cases h with
  | leaf => rfl
  | node j lo hi m nd hlo => omega

theorem searchFill (d : T → T → ℚ) (items : List (T × ℕ)) (nodes : List Node)
    (q : T) (k : Int)
    (hfull : ∀ l : ℕ, l < items.length → heapFull l k = false)
    {a b : ℕ} {idx : Int} {lo hi : ℕ}
    (hsh : Shape d items nodes a b idx lo hi) :
    ∀ (fuel : ℕ) (st : SState) (condB : Bool), hi - lo ≤ fuel →
      heapSortedDesc st.heap →
      (∀ e ∈ st.heap, e.item < items.length) →
      (st.heap.length < items.length → st.tau = none) →
      st.heap.length + (hi - lo) ≤ items.length →
      (condB = false → hi = lo) →
      ∃ st2 : SState,
        (if idx != Node.Leaf && condB
         then searchInNode d items nodes q k fuel idx.toNat st
         else some st) = some st2 ∧
        st2.heap.Perm (((List.range' lo (hi - lo)).map (entryOf d items q)) ++ st.heap) ∧
        heapSortedDesc st2.heap ∧
        (∀ e ∈ st2.heap, e.item < items.length) ∧
        st2.heap.length = st.heap.length + (hi - lo) ∧
        (st2.heap.length < items.length → st2.tau = none) := by
  induction hsh with
  | leaf lo =>
    intro fuel st condB hfuel hsorted hvalid htau hcap hcond
    refine ⟨st, ?_, by simp, hsorted, hvalid, by omega, htau⟩
    rw [show (Node.Leaf != Node.Leaf && condB) = false by simp]
    rw [if_neg (by simp)]
  | node j lo hi m nd hlo hm1 hm2 hja hjb hget hitem hlen hleft hright hL hR ihL ihR =>
    intro fuel st condB hfuel hsorted hvalid htau hcap hcond
    have hcondB : condB = true := by
      cases condB
      · exact absurd (hcond rfl) (by omega)
      · rfl
    subst hcondB
    have hidx : (((j : ℕ) : Int) != Node.Leaf) = true := by
      simp [Node.Leaf, bne_iff_ne]
    rw [Bool.and_true, if_pos hidx]
    cases fuel with
    | zero => omega
    | succ fuel2 =>
      rw [searchInNode]
      rw [Int.toNat_ofNat, hget, Option.some_bind, hitem,
        get?_eq_some_getD (show lo < items.length by omega), Option.some_bind]
      dsimp only
      have htau0 : st.tau = none := htau (by omega)
      have hadm : ∃ tau1,
          addCandidate k lo (d (items.getD lo default).1 q) st
            = some ⟨heapPush st.heap ⟨lo, d (items.getD lo default).1 q⟩, tau1⟩ ∧
          (st.heap.length + 1 < items.length → tau1 = none) := by
        unfold addCandidate
        rw [htau0]
        rw [show distLtTau (d (items.getD lo default).1 q) none = true from rfl]
        rw [if_pos rfl, hfull st.heap.length (by omega)]
        rw [if_neg (by simp)]
        rw [Option.some_bind]
        refine ⟨_, rfl, ?_⟩
        intro hlt
        rw [heapPush_length, hfull _ hlt]
        simp
      obtain ⟨tau1, hadmEq, htau1⟩ := hadm
      rw [hadmEq, Option.some_bind]
      set st1 : SState := ⟨heapPush st.heap ⟨lo, d (items.getD lo default).1 q⟩, tau1⟩
        with hst1def
      have hst1heap : st1.heap = heapPush st.heap ⟨lo, d (items.getD lo default).1 q⟩ := rfl
      have hst1tauv : st1.tau = tau1 := rfl
      have hst1sorted : heapSortedDesc st1.heap := heapPush_sorted hsorted
      have hst1valid : ∀ e ∈ st1.heap, e.item < items.length := by
        intro e he
        rcases heapPush_mem he with rfl | he2
        · show lo < items.length
          omega
        · exact hvalid e he2
      have hst1len : st1.heap.length = st.heap.length + 1 := heapPush_length _ _
      have hst1tau : st1.heap.length < items.length → st1.tau = none := by
        intro h
        rw [hst1tauv]
        exact htau1 (by omega)
      have hpushperm : st1.heap.Perm (entryOf d items q lo :: st.heap) := heapPush_perm _ _
      have hsplitmap : (List.range' lo (hi - lo)).map (entryOf d items q)
          = entryOf d items q lo ::
            ((List.range' (lo + 1) (m - (lo + 1))).map (entryOf d items q)
              ++ (List.range' m (hi - m)).map (entryOf d items q)) := by
        have hranges : List.range' (lo + 1) (m - (lo + 1)) ++ List.range' m (hi - m)
            = List.range' (lo + 1) (hi - (lo + 1)) := by
          have h := List.range'_append (lo + 1) (m - (lo + 1)) (hi - m) 1
          simp only [one_mul] at h
          rw [show lo + 1 + (m - (lo + 1)) = m by omega] at h
          rw [show hi - m + (m - (lo + 1)) = hi - (lo + 1) by omega] at h
          exact h
        have hrange2 : List.range' lo (hi - lo)
            = lo :: List.range' (lo + 1) (hi - (lo + 1)) := by
          have h := List.range'_succ lo (hi - (lo + 1)) 1
          rw [show hi - (lo + 1) + 1 = hi - lo by omega] at h
          simpa using h
        rw [hrange2, ← hranges, List.map_cons, List.map_append]
      set A := (List.range' (lo + 1) (m - (lo + 1))).map (entryOf d items q) with hA
      set B := (List.range' m (hi - m)).map (entryOf d items q) with hB
      have hAlen : A.length = m - (lo + 1) := by rw [hA, List.length_map, List.length_range']
      have hBlen : B.length = hi - m := by rw [hB, List.length_map, List.length_range']
      have hgoalperm : ∀ h3 : List HeapItem,
          (h3.Perm (B ++ (A ++ st1.heap)) ∨ h3.Perm (A ++ (B ++ st1.heap))) →
          h3.Perm (((List.range' lo (hi - lo)).map (entryOf d items q)) ++ st.heap) := by
        intro h3 hp
        rw [hsplitmap, List.cons_append]
        have core : ∀ X Y : List HeapItem, X.length = A.length → Y.length = B.length →
            (X ++ (Y ++ st1.heap)).Perm (Y ++ (X ++ st1.heap)) := by
          intro X Y _ _
          rw [← List.append_assoc, ← List.append_assoc]
          exact List.Perm.append_right _ List.perm_append_comm
        have main : (B ++ (A ++ st1.heap)).Perm
            (entryOf d items q lo :: (A ++ B ++ st.heap)) := by
          refine (List.Perm.append_left B ((List.Perm.append_left A hpushperm).trans
            List.perm_middle)).trans ?_
          refine List.perm_middle.trans ?_
          refine List.Perm.cons _ ?_
          rw [← List.append_assoc]
          exact List.Perm.append_right _ List.perm_append_comm
        rcases hp with hp | hp
        · exact hp.trans main
        · refine hp.trans (((core A B rfl rfl).trans main))
      -- the two traversal orders
      by_cases hbr : d (items.getD lo default).1 q < nd.threshold
      · rw [if_pos (decide_eq_true_iff.mpr hbr)]
        obtain ⟨st2, heq2, hperm2, hsort2, hvalid2, hlen2, htau2⟩ :=
          ihL fuel2 st1 (nearCond (d (items.getD lo default).1 q) st1.tau nd.threshold)
            (by omega) hst1sorted hst1valid hst1tau (by omega)
            (by
              intro hfc
              by_contra hne
              have hlt : st1.heap.length < items.length := by omega
              rw [hst1tau hlt] at hfc
              simp [nearCond] at hfc)
        rw [heq2, Option.some_bind]
        obtain ⟨st3, heq3, hperm3, hsort3, hvalid3, hlen3, htau3⟩ :=
          ihR fuel2 st2 (farCond (d (items.getD lo default).1 q) st2.tau nd.threshold)
            (by omega) hsort2 hvalid2 htau2 (by omega)
            (by
              intro hfc
              by_contra hne
              have hlt : st2.heap.length < items.length := by omega
              rw [htau2 hlt] at hfc
              simp [farCond] at hfc)
        refine ⟨st3, heq3, ?_, hsort3, hvalid3, by omega, htau3⟩
        refine hgoalperm st3.heap (Or.inl ?_)
        exact hperm3.trans (List.Perm.append_left B hperm2)
      · rw [if_neg (by simpa using hbr)]
        obtain ⟨st2, heq2, hperm2, hsort2, hvalid2, hlen2, htau2⟩ :=
          ihR fuel2 st1 (farCond (d (items.getD lo default).1 q) st1.tau nd.threshold)
            (by omega) hst1sorted hst1valid hst1tau (by omega)
            (by
              intro hfc
              by_contra hne
              have hlt : st1.heap.length < items.length := by omega
              rw [hst1tau hlt] at hfc
              simp [farCond] at hfc)
        rw [heq2, Option.some_bind]
        obtain ⟨st3, heq3, hperm3, hsort3, hvalid3, hlen3, htau3⟩ :=
          ihL fuel2 st2 (nearCond (d (items.getD lo default).1 q) st2.tau nd.threshold)
            (by omega) hsort2 hvalid2 htau2 (by omega)
            (by
              intro hfc
              by_contra hne
              have hlt : st2.heap.length < items.length := by omega
              rw [htau2 hlt] at hfc
              simp [nearCond] at hfc)
        refine ⟨st3, heq3, ?_, hsort3, hvalid3, by omega, htau3⟩
        refine hgoalperm st3.heap (Or.inr ?_)
        exact hperm3.trans (List.Perm.append_left A hperm2)

theorem searchCount (d : T → T → ℚ) (items : List (T × ℕ)) (nodes : List Node)
    (q : T) (k : Int) (kn : ℕ) (hkn : 1 ≤ kn)
    (hfull : ∀ l : ℕ, heapFull l k = (l == kn))
    {a b : ℕ} {idx : Int} {lo hi : ℕ}
    (hsh : Shape d items nodes a b idx lo hi) :
    ∀ (fuel : ℕ) (st : SState) (condB : Bool), hi - lo ≤ fuel →
      heapSortedDesc st.heap →
      (∀ e ∈ st.heap, e.item < items.length) →
      st.heap.length ≤ kn →
      (st.tau = none ↔ st.heap.length < kn) →
      (condB = false → idx = Node.Leaf ∨ st.heap.length = kn) →
      ∃ st2 : SState,
        (if idx != Node.Leaf && condB
         then searchInNode d items nodes q k fuel idx.toNat st
         else some st) = some st2 ∧
        st2.heap.length = min (st.heap.length + (hi - lo)) kn ∧
        heapSortedDesc st2.heap ∧
        (∀ e ∈ st2.heap, e.item < items.length) ∧
        st2.heap.length ≤ kn ∧
        (st2.tau = none ↔ st2.heap.length < kn) := by
  induction hsh with
  | leaf lo =>
    intro fuel st condB hfuel hsorted hvalid hle hiff hcond
    refine ⟨st, ?_, by omega, hsorted, hvalid, hle, hiff⟩
    rw [show (Node.Leaf != Node.Leaf && condB) = false by simp]
    rw [if_neg (by simp)]
  | node j lo hi m nd hlo hm1 hm2 hja hjb hget hitem hlen hleft hright hL hR ihL ihR =>
    intro fuel st condB hfuel hsorted hvalid hle hiff hcond
    cases condB with
    | false =>
      have hlenk : st.heap.length = kn := by
        rcases hcond rfl with h | h
        · exfalso
          rw [Node.Leaf] at h
          omega
        · exact h
      refine ⟨st, ?_, by omega, hsorted, hvalid, hle, hiff⟩
      rw [Bool.and_false, if_neg (by simp)]
    | true =>
      have hidx : (((j : ℕ) : Int) != Node.Leaf) = true := by
        simp [Node.Leaf, bne_iff_ne]
      rw [Bool.and_true, if_pos hidx]
      cases fuel with
      | zero => omega
      | succ fuel2 =>
        rw [searchInNode]
        rw [Int.toNat_ofNat, hget, Option.some_bind, hitem,
          get?_eq_some_getD (show lo < items.length by omega), Option.some_bind]
        dsimp only
        have hadm : ∃ st1 : SState,
            addCandidate k lo (d (items.getD lo default).1 q) st = some st1 ∧
            heapSortedDesc st1.heap ∧
            (∀ e ∈ st1.heap, e.item < items.length) ∧
            st1.heap.length = min (st.heap.length + 1) kn ∧
            (st1.tau = none ↔ st1.heap.length < kn) := by
          by_cases hcase : st.heap.length < kn
          · have htau0 : st.tau = none := hiff.mpr hcase
            obtain ⟨y, ys, hcons⟩ : ∃ y ys,
                heapPush st.heap ⟨lo, d (items.getD lo default).1 q⟩ = y :: ys := by
              cases hp : heapPush st.heap ⟨lo, d (items.getD lo default).1 q⟩ with
              | nil => exact absurd hp (heapPush_ne_nil _ _)
              | cons y ys => exact ⟨y, ys, rfl⟩
            unfold addCandidate
            rw [htau0]
            rw [show distLtTau (d (items.getD lo default).1 q) none = true from rfl]
            rw [if_pos rfl, hfull st.heap.length,
              show (st.heap.length == kn) = false from by
                simp only [beq_eq_false_iff_ne]; omega]
            rw [if_neg (by simp), Option.some_bind]
            refine ⟨_, rfl, heapPush_sorted hsorted, ?_, ?_, ?_⟩
            · intro e he
              rcases heapPush_mem he with rfl | he2
              · show lo < items.length
                omega
              · exact hvalid e he2
            · show (heapPush st.heap ⟨lo, d (items.getD lo default).1 q⟩).length
                = min (st.heap.length + 1) kn
              rw [heapPush_length]
              omega
            · show (if heapFull (heapPush st.heap
                    ⟨lo, d (items.getD lo default).1 q⟩).length k = true then
                  match heapPush st.heap ⟨lo, d (items.getD lo default).1 q⟩ with
                  | [] => none
                  | top :: _ => some top.dist
                else none) = none
                ↔ (heapPush st.heap ⟨lo, d (items.getD lo default).1 q⟩).length < kn
              rw [heapPush_length, hfull]
              by_cases heq2 : st.heap.length + 1 = kn
              · rw [if_pos (by simp [heq2]), hcons]
                constructor
                · intro hcontra
                  exact absurd hcontra (by simp)
                · intro hcontra
                  exact absurd hcontra (by omega)
              · rw [if_neg (by simp only [beq_iff_eq]; omega)]
                constructor
                · intro _
                  omega
                · intro _
                  rfl
          · have hlenk : st.heap.length = kn := by omega
            obtain ⟨t, htaut⟩ : ∃ t, st.tau = some t := by
              cases h : st.tau with
              | none => exact absurd (hiff.mp h) hcase
              | some t => exact ⟨t, rfl⟩
            unfold addCandidate
            rw [htaut]
            by_cases hdt : d (items.getD lo default).1 q < t
            · rw [show distLtTau (d (items.getD lo default).1 q) (some t) = true from
                by exact decide_eq_true_iff.mpr hdt]
              rw [if_pos rfl, hfull st.heap.length,
                show (st.heap.length == kn) = true from by simp [hlenk]]
              rw [if_pos rfl]
              obtain ⟨y, ys, hys⟩ : ∃ y ys, st.heap = y :: ys := by
                cases h : st.heap with
                | nil => exfalso; rw [h] at hlenk; simp at hlenk; omega
                | cons y ys => exact ⟨y, ys, rfl⟩
              rw [hys, Option.some_bind]
              have hsortys : heapSortedDesc ys := by
                have := hsorted
                rw [hys] at this
                exact this.tail
              obtain ⟨z, zs, hcons⟩ : ∃ z zs,
                  heapPush ys ⟨lo, d (items.getD lo default).1 q⟩ = z :: zs := by
                cases hp : heapPush ys ⟨lo, d (items.getD lo default).1 q⟩ with
                | nil => exact absurd hp (heapPush_ne_nil _ _)
                | cons z zs => exact ⟨z, zs, rfl⟩
              have hyslen : ys.length + 1 = kn := by
                rw [hys] at hlenk
                simpa using hlenk
              refine ⟨_, rfl, heapPush_sorted hsortys, ?_, ?_, ?_⟩
              · intro e he
                rcases heapPush_mem he with rfl | he2
                · show lo < items.length
                  omega
                · refine hvalid e ?_
                  rw [hys]
                  exact List.mem_cons_of_mem _ he2
              · show (heapPush ys ⟨lo, d (items.getD lo default).1 q⟩).length
                  = min ((y :: ys).length + 1) kn
                rw [heapPush_length]
                simp only [List.length_cons]
                omega
              · show (if heapFull (heapPush ys
                      ⟨lo, d (items.getD lo default).1 q⟩).length k = true then
                    match heapPush ys ⟨lo, d (items.getD lo default).1 q⟩ with
                    | [] => some t
                    | top :: _ => some top.dist
                  else some t) = none
                  ↔ (heapPush ys ⟨lo, d (items.getD lo default).1 q⟩).length < kn
                rw [heapPush_length, hfull,
                  show (ys.length + 1 == kn) = true from by simp [hyslen], if_pos rfl,
                  hcons]
                constructor
                · intro hcontra
                  exact absurd hcontra (by simp)
                · intro hcontra
                  exact absurd hcontra (by omega)
            · rw [show distLtTau (d (items.getD lo default).1 q) (some t) = false from
                by exact decide_eq_false hdt]
              rw [if_neg (by simp)]
              refine ⟨st, rfl, hsorted, hvalid, by omega, hiff⟩
        obtain ⟨st1, hadmEq, hst1sorted, hst1valid, hst1len, hst1iff⟩ := hadm
        rw [hadmEq, Option.some_bind]
        have hst1le : st1.heap.length ≤ kn := by omega
        have hsideL : nearCond (d (items.getD lo default).1 q) st1.tau nd.threshold
            = false → nd.left = Node.Leaf ∨ st1.heap.length = kn := by
          intro hfc
          right
          by_contra hne
          have : st1.tau = none := hst1iff.mpr (by omega)
          rw [this] at hfc
          simp [nearCond] at hfc
        have hsideR : farCond (d (items.getD lo default).1 q) st1.tau nd.threshold
            = false → nd.right = Node.Leaf ∨ st1.heap.length = kn := by
          intro hfc
          right
          by_contra hne
          have : st1.tau = none := hst1iff.mpr (by omega)
          rw [this] at hfc
          simp [farCond] at hfc
        by_cases hbr : d (items.getD lo default).1 q < nd.threshold
        · rw [if_pos (decide_eq_true_iff.mpr hbr)]
          obtain ⟨st2, heq2, hlen2, hsort2, hvalid2, hle2, hiff2⟩ :=
            ihL fuel2 st1 (nearCond (d (items.getD lo default).1 q) st1.tau nd.threshold)
              (by omega) hst1sorted hst1valid hst1le hst1iff hsideL
          rw [heq2, Option.some_bind]
          obtain ⟨st3, heq3, hlen3, hsort3, hvalid3, hle3, hiff3⟩ :=
            ihR fuel2 st2 (farCond (d (items.getD lo default).1 q) st2.tau nd.threshold)
              (by omega) hsort2 hvalid2 hle2 hiff2
              (by
                intro hfc
                right
                by_contra hne
                have : st2.tau = none := hiff2.mpr (by omega)
                rw [this] at hfc
                simp [farCond] at hfc)
          exact ⟨st3, heq3, by omega, hsort3, hvalid3, hle3, hiff3⟩
        · rw [if_neg (by simpa using hbr)]
          obtain ⟨st2, heq2, hlen2, hsort2, hvalid2, hle2, hiff2⟩ :=
            ihR fuel2 st1 (farCond (d (items.getD lo default).1 q) st1.tau nd.threshold)
              (by omega) hst1sorted hst1valid hst1le hst1iff hsideR
          rw [heq2, Option.some_bind]
          obtain ⟨st3, heq3, hlen3, hsort3, hvalid3, hle3, hiff3⟩ :=
            ihL fuel2 st2 (nearCond (d (items.getD lo default).1 q) st2.tau nd.threshold)
              (by omega) hsort2 hvalid2 hle2 hiff2
              (by
                intro hfc
                right
                by_contra hne
                have : st2.tau = none := hiff2.mpr (by omega)
                rw [this] at hfc
                simp [nearCond] at hfc)
          exact ⟨st3, heq3, by omega, hsort3, hvalid3, hle3, hiff3⟩

theorem drain_eq {items : List (T × ℕ)} :
    ∀ {h : List HeapItem}, (∀ e ∈ h, e.item < items.length) →
      drain items h = some (h.map (resultOf items)) := by
  intro h
  induction h with
  | nil => intro _; rfl
  | cons e t ih =>
    intro hv
    show (items.get? e.item).bind _ = _
    rw [get?_eq_some_getD (hv e (List.mem_cons_self _ _)), Option.some_bind,
      ih (fun e2 he2 => hv e2 (List.mem_cons_of_mem _ he2)), Option.some_bind]
    rfl

theorem drain_mem {items : List (T × ℕ)} :
    ∀ {h : List HeapItem} {rs : List (Result T)}, drain items h = some rs →
      ∀ r ∈ rs, ∃ pr ∈ items, r.item = pr.1 ∧ r.index = pr.2 := by
  intro h
  induction h with
  | nil =>
    intro rs heq r hr
    have h0 : some ([] : List (Result T)) = some rs := heq
    obtain rfl := Option.some_inj.mp h0
    simp at hr
  | cons e t ih =>
    intro rs heq r hr
    have heq2 : (items.get? e.item).bind (fun pr =>
        (drain items t).bind (fun rest =>
        some (⟨pr.1, pr.2, e.dist⟩ :: rest))) = some rs := heq
    cases hget : items.get? e.item with
    | none => rw [hget] at heq2; simp at heq2
    | some pr =>
      rw [hget, Option.some_bind] at heq2
      cases hdr : drain items t with
      | none => rw [hdr] at heq2; simp at heq2
      | some rest =>
        rw [hdr, Option.some_bind] at heq2
        have hrs : rs = ⟨pr.1, pr.2, e.dist⟩ :: rest := by
          have := heq2
          simpa using this.symm
        subst hrs
        rcases List.mem_cons.1 hr with rfl | hr2
        · exact ⟨pr, List.get?_mem hget, rfl, rfl⟩
        · exact ih hdr r hr2

theorem heapFull_natCast (kn : ℕ) (hk : (kn : Int) < 2 ^ 64) (l : ℕ) :
    heapFull l (kn : Int) = (l == kn) := by
  unfold heapFull
  rw [Int.emod_eq_of_lt (by positivity) hk]
  by_cases h : l = kn
  · rw [h]
    simp
  · rw [beq_eq_false_iff_ne.mpr (by exact_mod_cast h), beq_eq_false_iff_ne.mpr h]

theorem heapFull_of_lt (kn : ℕ) (hk : (kn : Int) < 2 ^ 64) (l : ℕ) (hl : l < kn) :
    heapFull l (kn : Int) = false := by
  rw [heapFull_natCast kn hk, beq_eq_false_iff_ne]
  omega

theorem heapFull_neg (k : Int) (hk1 : -(2 ^ 31) ≤ k) (hk2 : k < 0) (l : ℕ)
    (hl : (l : Int) < 2 ^ 63) : heapFull l k = false := by
  unfold heapFull
  rw [beq_eq_false_iff_ne]
  omega

theorem collectItems_mem {d : T → T → ℚ} {items : List (T × ℕ)} {nodes : List Node}
    {a b : ℕ} {idx : Int} {lo hi : ℕ} (hsh : Shape d items nodes a b idx lo hi) :
    ∀ fuel, hi - lo ≤ fuel → ∀ p ∈ collectItems nodes fuel idx, lo ≤ p ∧ p < hi := by
  induction hsh with
  | leaf lo =>
    intro fuel hfuel p hp
    cases fuel with
    | zero => simp [collectItems] at hp
    | succ fuel2 =>
      rw [collectItems, if_pos (by rw [Node.Leaf]; omega)] at hp
      simp at hp
  | node j lo hi m nd hlo hm1 hm2 hja hjb hget hitem hlen hleft hright hL hR ihL ihR =>
    intro fuel hfuel p hp
    cases fuel with
    | zero => omega
    | succ fuel2 =>
      rw [collectItems, if_neg (by omega), Int.toNat_ofNat, hget] at hp
      rcases List.mem_cons.1 hp with rfl | hp2
      · omega
      · rcases List.mem_append.1 hp2 with hp3 | hp3
        · have := ihL fuel2 (by omega) p hp3
          omega
        · have := ihR fuel2 (by omega) p hp3
          omega

theorem fill_result (d : T → T → ℚ) (f : ℕ → ℕ) (xs : List T) (q : T) (k : Int)
    (hne : xs ≠ [])
    (hfullk : ∀ l : ℕ, l < xs.length → heapFull l k = false) :
    ∃ res : List (Result T),
      (VpTree.build d f xs).getNearestNeighbors q k = some res ∧
      res.Perm ((makeItems xs 0).map
        (fun p => (⟨p.1, p.2, d p.1 q⟩ : Result T))) ∧
      res.Pairwise (fun r s => r.dist ≤ s.dist) ∧
      res.length = xs.length := by
  obtain ⟨hilen, hiperm, hnlen, hnperm, hshape, hpernode⟩ := build_spec d f xs
  set t := VpTree.build d f xs with ht
  have hn1 : 0 < xs.length := by
    cases xs with
    | nil => exact absurd rfl hne
    | cons a l => simp
  have hfullk2 : ∀ l : ℕ, l < t.items.length → heapFull l k = false := by
    intro l hl
    exact hfullk l (by omega)
  have hnil : ({ heap := [], tau := none } : SState).heap.length = 0 := rfl
  have hs := searchFill d t.items t.nodes q k hfullk2 (hshape hne)
    t.nodes.length ⟨[], none⟩ true (by omega)
    (by simp [heapSortedDesc]) (by simp) (by intro _; rfl) (by omega)
    (by intro hcon; exact absurd hcon (by simp))
  obtain ⟨st2, heq, hperm, hsorted, hvalid, hlenr, _⟩ := hs
  rw [show ((((0 : ℕ) : Int)) != Node.Leaf && true) = true from by
    simp [Node.Leaf, bne_iff_ne], if_pos rfl, Int.toNat_ofNat] at heq
  have hres : t.getNearestNeighbors q k
      = some ((st2.heap.map (resultOf t.items)).reverse) := by
    show (t.nodes.get? 0).bind _ = _
    rw [get?_eq_some_getD (show 0 < t.nodes.length by omega), Option.some_bind,
      show t.getDistance = d from rfl,
      heq, Option.some_bind, drain_eq hvalid, Option.some_bind]
  refine ⟨(st2.heap.map (resultOf t.items)).reverse, hres, ?_, ?_, ?_⟩
  · refine ((st2.heap.map (resultOf t.items)).reverse_perm.trans
      ((hperm.map (resultOf t.items)).trans ?_))
    rw [List.map_append]
    have hmapnil : ((([] : List HeapItem)).map (resultOf t.items)) = [] := rfl
    rw [show ((([] : List HeapItem)).map (resultOf t.items)) = [] from rfl,
      List.append_nil, List.map_map]
    have hitems_eq : t.items = (List.range' 0 (xs.length - 0)).map
        (fun p => t.items.getD p default) := by
      have := slice_eq_map (l := t.items) (a := 0) (b := xs.length)
        (by omega) (by omega)
      rw [← this]
      rw [show xs.length = t.items.length by omega]
      exact (slice_all _).symm
    have hcomp : (List.range' 0 (xs.length - 0)).map
        ((resultOf t.items) ∘ (entryOf d t.items q))
        = (t.items.map (fun p => (⟨p.1, p.2, d p.1 q⟩ : Result T))) := by
      conv_rhs => rw [hitems_eq]
      rw [List.map_map]
      apply List.map_congr_left
      intro x _
      rfl
    rw [hcomp]
    exact hiperm.map _
  · rw [List.pairwise_reverse, List.pairwise_map]
    exact hsorted
  · rw [List.length_reverse, List.length_map]
    omega

theorem count_result (d : T → T → ℚ) (f : ℕ → ℕ) (xs : List T) (q : T) (k : Int)
    (kn : ℕ) (hkn : 1 ≤ kn) (hne : xs ≠ [])
    (hfullk : ∀ l : ℕ, heapFull l k = (l == kn)) :
    ∃ res : List (Result T),
      (VpTree.build d f xs).getNearestNeighbors q k = some res ∧
      res.length = min xs.length kn ∧
      res.Pairwise (fun r s => r.dist ≤ s.dist) := by
  obtain ⟨hilen, hiperm, hnlen, hnperm, hshape, hpernode⟩ := build_spec d f xs
  set t := VpTree.build d f xs with ht
  have hn1 : 0 < xs.length := by
    cases xs with
    | nil => exact absurd rfl hne
    | cons a l => simp
  have hnil : ({ heap := [], tau := none } : SState).heap.length = 0 := rfl
  have hnilt : ({ heap := [], tau := none } : SState).tau = none := rfl
  have hs := searchCount d t.items t.nodes q k kn hkn hfullk (hshape hne)
    t.nodes.length ⟨[], none⟩ true (by omega)
    (by simp [heapSortedDesc]) (by simp) (by omega)
    (by rw [hnilt]; constructor
        · intro _; omega
        · intro _; rfl)
    (by intro hcon; exact absurd hcon (by simp))
  obtain ⟨st2, heq, hlenr, hsorted, hvalid, _, _⟩ := hs
  rw [show ((((0 : ℕ) : Int)) != Node.Leaf && true) = true from by
    simp [Node.Leaf, bne_iff_ne], if_pos rfl, Int.toNat_ofNat] at heq
  have hres : t.getNearestNeighbors q k
      = some ((st2.heap.map (resultOf t.items)).reverse) := by
    show (t.nodes.get? 0).bind _ = _
    rw [get?_eq_some_getD (show 0 < t.nodes.length by omega), Option.some_bind,
      show t.getDistance = d from rfl,
      heq, Option.some_bind, drain_eq hvalid, Option.some_bind]
  refine ⟨(st2.heap.map (resultOf t.items)).reverse, hres, ?_, ?_⟩
  · rw [List.length_reverse, List.length_map]
    omega
  · rw [List.pairwise_reverse, List.pairwise_map]
    exact hsorted

theorem shape_node_inv {d : T → T → ℚ} {items : List (T × ℕ)} {nodes : List Node}
    {a b j lo hi : ℕ} (h : Shape d items nodes a b ((j : ℕ) : Int) lo hi) :
    ∃ (m : ℕ) (nd : Node), lo < hi ∧ lo + 1 ≤ m ∧ m ≤ hi ∧
      nodes.get? j = some nd ∧ nd.item = lo ∧ hi ≤ items.length ∧
      (∀ p, lo + 1 ≤ p → p < m →
        d (items.getD lo default).1 (items.getD p default).1 ≤ nd.threshold) ∧
      (∀ p, m ≤ p → p < hi →
        nd.threshold ≤ d (items.getD lo default).1 (items.getD p default).1) ∧
      Shape d items nodes a b nd.left (lo + 1) m ∧
      Shape d items nodes a b nd.right m hi := by
  generalize hidx : ((j : ℕ) : Int) = idx at h
  cases h with
  | leaf lo =>
    exfalso
    rw [Node.Leaf] at hidx
    omega
  | node j2 lo hi m nd hlo hm1 hm2 hja hjb hget hitem hlen hleft hright hL hR =>
    have hj : j = j2 := by omega
    subst hj
    exact ⟨m, nd, hlo, hm1, hm2, hget, hitem, hlen, hleft, hright, hL, hR⟩

end SearchLemmas

section ClaimTheorems

variable {T : Type} [Inhabited T]

/-- C1 (amended): for every non-empty item list (of length expressible as an
int), every distance function, every random stream and every query point,
querying the built tree with k equal to the number of items succeeds and
returns a permutation of the brute-force reference (all items sorted by
ascending distance to the query), sorted by non-decreasing distance, with the
same distance sequence as the brute-force reference - i.e. the two agree up to
the order of exact ties.  The n = 0 case of the original claim fails: the
search dereferences nodes_[0] on an empty node vector (see the
counterexample). -/
theorem C1_search_equals_brute_force (d : T → T → ℚ) (f : ℕ → ℕ)
    (xs : List T) (q : T) (hne : xs ≠ []) (hsize : (xs.length : Int) < 2 ^ 64) :
    ∃ res : List (Result T),
      (VpTree.build d f xs).getNearestNeighbors q (xs.length : Int) = some res ∧
      res.Perm (bruteForceNeighbors d xs q) ∧
      res.Pairwise (fun r s => r.dist ≤ s.dist) ∧
      res.map (fun r => r.dist) = (bruteForceNeighbors d xs q).map (fun r => r.dist) := by
  obtain ⟨res, hres, hperm, hsort, hlen⟩ := fill_result d f xs q (xs.length : Int) hne
    (fun l hl => heapFull_of_lt xs.length hsize l hl)
  have hbrute : (bruteForceNeighbors d xs q).Perm
      ((makeItems xs 0).map (fun p => (⟨p.1, p.2, d p.1 q⟩ : Result T))) :=
    List.perm_insertionSort _ _
  refine ⟨res, hres, hperm.trans hbrute.symm, hsort, ?_⟩
  have hpermd : (res.map (fun r => r.dist)).Perm
      ((bruteForceNeighbors d xs q).map (fun r => r.dist)) :=
    (hperm.trans hbrute.symm).map _
  have hs1 : List.Sorted (· ≤ ·) (res.map (fun r => r.dist)) := by
    rw [List.Sorted, List.pairwise_map]
    exact hsort
  have hs2 : List.Sorted (· ≤ ·) ((bruteForceNeighbors d xs q).map (fun r => r.dist)) := by
    rw [List.Sorted, List.pairwise_map]
    haveI h1 : IsTotal (Result T) (fun r s => r.dist ≤ s.dist) :=
      ⟨fun r s => le_total _ _⟩
    haveI h2 : IsTrans (Result T) (fun r s => r.dist ≤ s.dist) :=
      ⟨fun x y z hxy hyz => le_trans hxy hyz⟩
    exact List.sorted_insertionSort _ _
  exact List.eq_of_perm_of_sorted hpermd hs1 hs2

/-- C1 counterexample: for the empty item set the claim demands the empty
result list, but the search reads nodes_[0] of the empty node vector
(undefined behaviour, modelled as none). -/
theorem C1_counterexample_empty :
    (VpTree.build dInt f0 ([] : List ℤ)).getNearestNeighbors 0 0 = none := rfl

/-- C1 witness: the amended theorem applied to the items 5, 2, 9 with query
0 under the absolute-difference metric. -/
theorem C1_witness :
    ∃ res : List (Result ℤ),
      (VpTree.build dInt f0 [5, 2, 9]).getNearestNeighbors 0 ((3 : ℕ) : Int)
        = some res ∧
      res.Perm (bruteForceNeighbors dInt [5, 2, 9] 0) ∧
      res.Pairwise (fun r s => r.dist ≤ s.dist) ∧
      res.map (fun r => r.dist) = (bruteForceNeighbors dInt [5, 2, 9] 0).map
        (fun r => r.dist) :=
  C1_search_equals_brute_force dInt f0 [5, 2, 9] 0 (by decide) (by decide)

/-- C2 (amended): for every non-empty item list, every 1 <= k < 2 ^ 64,
every distance function, random stream and query, the query succeeds and
returns exactly min(k, n) results whose dist fields are non-decreasing.
The k = 0 case of the original claim fails: the admission block pops an
empty heap (see the counterexample). -/
theorem C2_count_and_order (d : T → T → ℚ) (f : ℕ → ℕ) (xs : List T) (q : T)
    (kn : ℕ) (hk1 : 1 ≤ kn) (hk2 : (kn : Int) < 2 ^ 64) (hne : xs ≠ []) :
    ∃ res : List (Result T),
      (VpTree.build d f xs).getNearestNeighbors q (kn : Int) = some res ∧
      res.length = min kn xs.length ∧
      res.Pairwise (fun r s => r.dist ≤ s.dist) := by
  obtain ⟨res, h1, h2, h3⟩ := count_result d f xs q (kn : Int) kn hk1 hne
    (heapFull_natCast kn hk2)
  exact ⟨res, h1, by omega, h3⟩

/-- C2 counterexample: with k = 0 on a one-item tree the first candidate
admission finds heap_.size() == neighborsCount_ (0 == 0) and pops the empty
heap - undefined behaviour, modelled as none, where the claim demands an
empty result list. -/
theorem C2_counterexample_zero_k :
    (VpTree.build dInt f0 ([5] : List ℤ)).getNearestNeighbors 0 0 = none := rfl

/-- C2 witness: the amended theorem applied to the items 5, 2, 9 with k = 2. -/
theorem C2_witness :
    ∃ res : List (Result ℤ),
      (VpTree.build dInt f0 [5, 2, 9]).getNearestNeighbors 0 ((2 : ℕ) : Int)
        = some res ∧
      res.length = min 2 3 ∧
      res.Pairwise (fun r s => r.dist ≤ s.dist) := by
  have h := C2_count_and_order dInt f0 [5, 2, 9] 0 2 (by decide) (by decide) (by decide)
  simpa using h

/-- C3: in every constructed tree, every item stored in a node's left
subtree lies within the node's threshold of the node's vantage point, and
every item stored in its right subtree lies at or beyond the threshold. -/
theorem C3_structural_invariant (d : T → T → ℚ) (f : ℕ → ℕ) (xs : List T)
    (j : ℕ) (hj : j < (VpTree.build d f xs).nodes.length) :
    (∀ p ∈ collectItems (VpTree.build d f xs).nodes
        (VpTree.build d f xs).nodes.length
        ((VpTree.build d f xs).nodes.getD j default).left,
      d ((VpTree.build d f xs).items.getD
          ((VpTree.build d f xs).nodes.getD j default).item default).1
        ((VpTree.build d f xs).items.getD p default).1
        ≤ ((VpTree.build d f xs).nodes.getD j default).threshold) ∧
    (∀ p ∈ collectItems (VpTree.build d f xs).nodes
        (VpTree.build d f xs).nodes.length
        ((VpTree.build d f xs).nodes.getD j default).right,
      ((VpTree.build d f xs).nodes.getD j default).threshold
        ≤ d ((VpTree.build d f xs).items.getD
            ((VpTree.build d f xs).nodes.getD j default).item default).1
          ((VpTree.build d f xs).items.getD p default).1) := by
  obtain ⟨hilen, hiperm, hnlen, hnperm, hshape, hpernode⟩ := build_spec d f xs
  set t := VpTree.build d f xs with ht
  obtain ⟨lo2, hi2, hhi2, hsh⟩ := hpernode j hj
  obtain ⟨m, nd, hlo, hm1, hm2, hget, hitem, hhl, hleft, hright, hL, hR⟩ :=
    shape_node_inv hsh
  have hndD : t.nodes.getD j default = nd := by
    rw [getD_eq_get?, hget]
    rfl
  rw [hndD, hitem]
  constructor
  · intro p hp
    have hb := collectItems_mem hL t.nodes.length (by omega) p hp
    exact hleft p (by omega) (by omega)
  · intro p hp
    have hb := collectItems_mem hR t.nodes.length (by omega) p hp
    exact hright p (by omega) (by omega)

/-- C3 witness: the invariant at the root node of the tree over 5, 2, 9, 1. -/
theorem C3_witness :
    (∀ p ∈ collectItems (VpTree.build dInt f0 [(5 : ℤ), 2, 9, 1]).nodes
        (VpTree.build dInt f0 [(5 : ℤ), 2, 9, 1]).nodes.length
        ((VpTree.build dInt f0 [(5 : ℤ), 2, 9, 1]).nodes.getD 0 default).left,
      dInt ((VpTree.build dInt f0 [(5 : ℤ), 2, 9, 1]).items.getD
          ((VpTree.build dInt f0 [(5 : ℤ), 2, 9, 1]).nodes.getD 0 default).item default).1
        ((VpTree.build dInt f0 [(5 : ℤ), 2, 9, 1]).items.getD p default).1
        ≤ ((VpTree.build dInt f0 [(5 : ℤ), 2, 9, 1]).nodes.getD 0 default).threshold) ∧
    (∀ p ∈ collectItems (VpTree.build dInt f0 [(5 : ℤ), 2, 9, 1]).nodes
        (VpTree.build dInt f0 [(5 : ℤ), 2, 9, 1]).nodes.length
        ((VpTree.build dInt f0 [(5 : ℤ), 2, 9, 1]).nodes.getD 0 default).right,
      ((VpTree.build dInt f0 [(5 : ℤ), 2, 9, 1]).nodes.getD 0 default).threshold
        ≤ dInt ((VpTree.build dInt f0 [(5 : ℤ), 2, 9, 1]).items.getD
            ((VpTree.build dInt f0 [(5 : ℤ), 2, 9, 1]).nodes.getD 0 default).item default).1
          ((VpTree.build dInt f0 [(5 : ℤ), 2, 9, 1]).items.getD p default).1) :=
  C3_structural_invariant dInt f0 [(5 : ℤ), 2, 9, 1] 0 (by decide)

/-- C4: construction over n items produces exactly n nodes whose item
fields enumerate 0..n-1 exactly once, no node is created for an empty
range, and for a non-empty item list the recursive build returns node
index 0 as the root. -/
theorem C4_build_completeness (d : T → T → ℚ) (f : ℕ → ℕ) (xs : List T) :
    (VpTree.build d f xs).nodes.length = xs.length ∧
    ((VpTree.build d f xs).nodes.map (fun nd => nd.item)).Perm
      (List.range xs.length) ∧
    (∀ (st : BuildState T) (lo hi : ℕ), hi ≤ lo →
      makeTree d f st lo hi = (st, Node.Leaf)) ∧
    (xs ≠ [] →
      (makeTree d f ⟨makeItems xs 0, [], 0⟩ 0 (makeItems xs 0).length).2 = 0) := by
  obtain ⟨hilen, hiperm, hnlen, hnperm, hshape, hpernode⟩ := build_spec d f xs
  refine ⟨hnlen, by rw [List.range_eq_range']; exact hnperm, ?_, ?_⟩
  · intro st lo hi h
    show makeTreeGo d f (hi - lo) st lo hi = _
    rw [show hi - lo = 0 by omega]
    rfl
  · intro hne
    have hpos : 0 < (makeItems xs 0).length := by
      rw [makeItems_length]
      cases xs with
      | nil => exact absurd rfl hne
      | cons a l => simp
    have hres2 := (makeTree_spec d f ⟨makeItems xs 0, [], 0⟩ 0
      (makeItems xs 0).length (le_refl _)).2.2.1
    rw [hres2, if_pos hpos]
    rfl

/-- C5 (code bug): construction from the empty item set does succeed with
zero nodes, but every query on the empty tree evaluates nodes_[0] on the
empty node vector - an out-of-bounds access (undefined behaviour, modelled
as none) - instead of returning an empty sequence as the claim states. -/
theorem C5_empty_tree_query_out_of_bounds (d : T → T → ℚ) (f : ℕ → ℕ)
    (q : T) (k : Int) :
    (VpTree.build d f ([] : List T)).nodes = [] ∧
    (VpTree.build d f ([] : List T)).getNearestNeighbors q k = none :=
  ⟨rfl, rfl⟩

/-- C6 (code bug): a query with k = 0 on any non-empty tree reaches the
first candidate admission with heap_.size() == neighborsCount_ (0 == 0) and
pops the empty heap - undefined behaviour, modelled as none - rather than
returning an empty result with no heap activity. -/
theorem C6_zero_k_pops_empty_heap (d : T → T → ℚ) (f : ℕ → ℕ) (xs : List T)
    (q : T) (hne : xs ≠ []) :
    (VpTree.build d f xs).getNearestNeighbors q 0 = none := by
  obtain ⟨hilen, hiperm, hnlen, hnperm, hshape, hpernode⟩ := build_spec d f xs
  set t := VpTree.build d f xs with ht
  have hn1 : 0 < xs.length := by
    cases xs with
    | nil => exact absurd rfl hne
    | cons a l => simp
  obtain ⟨m, nd, hlo, hm1, hm2, hget, hitem, hhl, _, _, _, _⟩ :=
    shape_node_inv (hshape hne)
  show (t.nodes.get? 0).bind _ = none
  rw [get?_eq_some_getD (show 0 < t.nodes.length by omega), Option.some_bind]
  obtain ⟨fl, hfl⟩ : ∃ fl, t.nodes.length = fl + 1 := ⟨t.nodes.length - 1, by omega⟩
  rw [hfl, searchInNode, hget, Option.some_bind, hitem,
    get?_eq_some_getD (show 0 < t.items.length by omega), Option.some_bind]
  dsimp only
  rw [show addCandidate 0 0
      (t.getDistance (t.items.getD 0 default).1 q) ⟨[], none⟩ = none from rfl]
  rfl

/-- C6 witness: the zero-k query on the one-item tree over 5. -/
theorem C6_witness :
    (VpTree.build dInt f0 ([5] : List ℤ)).getNearestNeighbors 1 0 = none :=
  C6_zero_k_pops_empty_heap dInt f0 [5] 1 (by decide)

/-- C7 (amended): a negative neighbour count is not rejected: the search
runs normally, and because heap_.size() == neighborsCount_ compares the
size_t heap size against the int k converted modulo 2 ^ 64, the heap never
reaches "capacity", so the query pushes every item and returns all n items
in ascending distance order (for any int k < 0 and n within size_t range). -/
theorem C7_negative_k_returns_all (d : T → T → ℚ) (f : ℕ → ℕ) (xs : List T)
    (q : T) (k : Int) (hk1 : -(2 ^ 31) ≤ k) (hk2 : k < 0) (hne : xs ≠ [])
    (hlen : (xs.length : Int) ≤ 2 ^ 63) :
    ∃ res : List (Result T),
      (VpTree.build d f xs).getNearestNeighbors q k = some res ∧
      res.Perm ((makeItems xs 0).map
        (fun p => (⟨p.1, p.2, d p.1 q⟩ : Result T))) ∧
      res.Pairwise (fun r s => r.dist ≤ s.dist) ∧
      res.length = xs.length := by
  refine fill_result d f xs q k hne ?_
  intro l hl
  refine heapFull_neg k hk1 hk2 l ?_
  have : (l : Int) < (xs.length : Int) := by exact_mod_cast hl
  omega

/-- C7 counterexample: on the one-item tree over 0 the call with k = -1 is
not rejected; a candidate is pushed and returned, where the claim demands
rejection before any heap operation. -/
theorem C7_counterexample_negative_k :
    (VpTree.build dInt f0 ([0] : List ℤ)).getNearestNeighbors 0 (-1)
      = some [⟨0, 0, 0⟩] := by decide

/-- C7 witness: the amended theorem applied to the items 5, 2 with k = -1. -/
theorem C7_witness :
    ∃ res : List (Result ℤ),
      (VpTree.build dInt f0 [5, 2]).getNearestNeighbors 0 (-1) = some res ∧
      res.Perm ((makeItems [(5 : ℤ), 2] 0).map
        (fun p => (⟨p.1, p.2, dInt p.1 0⟩ : Result ℤ))) ∧
      res.Pairwise (fun r s => r.dist ≤ s.dist) ∧
      res.length = ([(5 : ℤ), 2]).length :=
  C7_negative_k_returns_all dInt f0 [5, 2] 0 (-1) (by decide) (by decide)
    (by decide) (by decide)

/-- C8: one recursive build step on a range of at least two items computes
the median position m = (lower+upper)/2, after selectRoot and
partitionByDistance every item in lower+1..m-1 is no farther from the
vantage point (the item at lower) than every item in m..upper-1, and the
created node's threshold equals the distance from the vantage point to the
item then at position m. -/
theorem C8_partition_step (d : T → T → ℚ) (f : ℕ → ℕ) (st : BuildState T)
    (lo hi : ℕ) (hge : lo + 2 ≤ hi) (hlen : hi ≤ st.items.length) :
    (∀ p q2 : ℕ, lo + 1 ≤ p → p < (hi + lo) / 2 → (hi + lo) / 2 ≤ q2 → q2 < hi →
      d ((partitionByDistance d (selectRoot f st lo hi) lo
            ((hi + lo) / 2) hi).items.getD lo default).1
        ((partitionByDistance d (selectRoot f st lo hi) lo
            ((hi + lo) / 2) hi).items.getD p default).1
        ≤ d ((partitionByDistance d (selectRoot f st lo hi) lo
            ((hi + lo) / 2) hi).items.getD lo default).1
          ((partitionByDistance d (selectRoot f st lo hi) lo
            ((hi + lo) / 2) hi).items.getD q2 default).1) ∧
    ((makeTree d f st lo hi).1.nodes.getD st.nodes.length default).threshold
      = d ((partitionByDistance d (selectRoot f st lo hi) lo
            ((hi + lo) / 2) hi).items.getD lo default).1
          ((partitionByDistance d (selectRoot f st lo hi) lo
            ((hi + lo) / 2) hi).items.getD ((hi + lo) / 2) default).1 := by
  have hth := (makeTree_spec d f st lo hi hlen).2.2.2.2.2 hge
  refine ⟨?_, hth⟩
  intro p q2 hp1 hp2 hq1 hq2
  set st1 := selectRoot f st lo hi with hst1
  have hlen1 : st1.items.length = st.items.length := by
    show (listSwap st.items lo _).length = _
    exact listSwap_length _ _ _
  have hgetlo : (partitionByDistance d st1 lo ((hi + lo) / 2) hi).items.getD lo default
      = st1.items.getD lo default := by
    show (sortRange _ st1.items (lo + 1) hi).getD lo default = _
    exact sortRange_getD_off (by omega) (by omega) (Or.inl (by omega))
  have hkey := @sortRange_sorted_keys _ _
    (fun pr => d (st1.items.getD lo default).1 pr.1)
    st1.items (lo + 1) hi p q2 hp1 (show p < q2 by omega) hq2
    (by omega)
  rw [hgetlo]
  exact hkey

/-- C8 witness: the step lemma applied to the four items 5, 2, 9, 1 on the
full range. -/
theorem C8_witness :
    (∀ p q2 : ℕ, 0 + 1 ≤ p → p < (4 + 0) / 2 → (4 + 0) / 2 ≤ q2 → q2 < 4 →
      dInt ((partitionByDistance dInt (selectRoot f0
            ⟨makeItems [(5 : ℤ), 2, 9, 1] 0, [], 0⟩ 0 4) 0
            ((4 + 0) / 2) 4).items.getD 0 default).1
        ((partitionByDistance dInt (selectRoot f0
            ⟨makeItems [(5 : ℤ), 2, 9, 1] 0, [], 0⟩ 0 4) 0
            ((4 + 0) / 2) 4).items.getD p default).1
        ≤ dInt ((partitionByDistance dInt (selectRoot f0
            ⟨makeItems [(5 : ℤ), 2, 9, 1] 0, [], 0⟩ 0 4) 0
            ((4 + 0) / 2) 4).items.getD 0 default).1
          ((partitionByDistance dInt (selectRoot f0
            ⟨makeItems [(5 : ℤ), 2, 9, 1] 0, [], 0⟩ 0 4) 0
            ((4 + 0) / 2) 4).items.getD q2 default).1) ∧
    ((makeTree dInt f0 ⟨makeItems [(5 : ℤ), 2, 9, 1] 0, [], 0⟩ 0 4).1.nodes.getD
        (⟨makeItems [(5 : ℤ), 2, 9, 1] 0, [], 0⟩ : BuildState ℤ).nodes.length
        default).threshold
      = dInt ((partitionByDistance dInt (selectRoot f0
            ⟨makeItems [(5 : ℤ), 2, 9, 1] 0, [], 0⟩ 0 4) 0
            ((4 + 0) / 2) 4).items.getD 0 default).1
          ((partitionByDistance dInt (selectRoot f0
            ⟨makeItems [(5 : ℤ), 2, 9, 1] 0, [], 0⟩ 0 4) 0
            ((4 + 0) / 2) 4).items.getD ((4 + 0) / 2) default).1 :=
  C8_partition_step dInt f0 ⟨makeItems [(5 : ℤ), 2, 9, 1] 0, [], 0⟩ 0 4
    (by decide) (by decide)

/-- C9: the search is a deterministic function of the tree's metric, item
sequence and node sequence together with the query and k: two trees that
agree on those (in particular the same tree queried twice) give identical
result sequences, regardless of the private random source left over from
construction. -/
theorem C9_search_deterministic (t1 t2 : VpTree T) (q : T) (k : Int)
    (hd : t1.getDistance = t2.getDistance) (hi : t1.items = t2.items)
    (hn : t1.nodes = t2.nodes) :
    t1.getNearestNeighbors q k = t2.getNearestNeighbors q k := by
  cases t1
  cases t2
  simp only at hd hi hn
  subst hd
  subst hi
  subst hn
  rfl

/-- C9 witness: two trees over the same data whose random-source fields
differ give the same answer. -/
theorem C9_witness :
    (VpTree.mk dInt [((5 : ℤ), 0)] [⟨0, 0, Node.Leaf, Node.Leaf⟩] f0 0).getNearestNeighbors
        0 1
      = (VpTree.mk dInt [((5 : ℤ), 0)] [⟨0, 0, Node.Leaf, Node.Leaf⟩]
          (fun n => n + 7) 42).getNearestNeighbors 0 1 :=
  C9_search_deterministic _ _ 0 1 rfl rfl rfl

/-- C10: every Result a query returns carries as its index the original
position of the referenced item in the input list supplied at construction,
and its item value equals the input item at that position, even though
construction permutes the internal item sequence. -/
theorem C10_results_reference_original (d : T → T → ℚ) (f : ℕ → ℕ)
    (xs : List T) (q : T) (k : Int) (res : List (Result T))
    (h : (VpTree.build d f xs).getNearestNeighbors q k = some res) :
    ∀ r ∈ res, r.index < xs.length ∧ xs.getD r.index default = r.item := by
  obtain ⟨hilen, hiperm, hnlen, hnperm, hshape, hpernode⟩ := build_spec d f xs
  set t := VpTree.build d f xs with ht
  have h2 : (t.nodes.get? 0).bind (fun _ =>
      (searchInNode t.getDistance t.items t.nodes q k
        t.nodes.length 0 ⟨[], none⟩).bind (fun stF =>
      (drain t.items stF.heap).bind (fun res2 =>
      some res2.reverse))) = some res := h
  cases hg : t.nodes.get? 0 with
  | none =>
    rw [hg] at h2
    simp at h2
  | some nd0 =>
    rw [hg, Option.some_bind] at h2
    cases hsi : searchInNode t.getDistance t.items t.nodes q k
        t.nodes.length 0 ⟨[], none⟩ with
    | none =>
      rw [hsi] at h2
      simp at h2
    | some stF =>
      rw [hsi, Option.some_bind] at h2
      cases hdr : drain t.items stF.heap with
      | none =>
        rw [hdr] at h2
        simp at h2
      | some rs =>
        rw [hdr, Option.some_bind] at h2
        obtain rfl := Option.some_inj.mp h2
        intro r hr
        have hr2 : r ∈ rs := List.mem_reverse.mp hr
        obtain ⟨pr, hpr, hitem, hindex⟩ := drain_mem hdr r hr2
        have hpr2 : pr ∈ makeItems xs 0 := hiperm.mem_iff.mp hpr
        obtain ⟨x, i⟩ := pr
        obtain ⟨_, hlt, hgd⟩ := makeItems_mem hpr2
        simp only [Nat.sub_zero] at hlt hgd
        rw [hindex, hitem]
        exact ⟨hlt, hgd⟩

/-- C10 witness: the theorem applied to the concrete query over 5, 2 whose
result list is computed explicitly, evaluated at each of the two results. -/
theorem C10_witness :
    (1 < ([(5 : ℤ), 2]).length ∧ ([(5 : ℤ), 2]).getD 1 default = (2 : ℤ)) ∧
    (0 < ([(5 : ℤ), 2]).length ∧ ([(5 : ℤ), 2]).getD 0 default = (5 : ℤ)) :=
  ⟨C10_results_reference_original dInt f0 [5, 2] 0 2 [⟨2, 1, 2⟩, ⟨5, 0, 5⟩]
      (by decide) ⟨2, 1, 2⟩ (by simp),
    C10_results_reference_original dInt f0 [5, 2] 0 2 [⟨2, 1, 2⟩, ⟨5, 0, 5⟩]
      (by decide) ⟨5, 0, 5⟩ (by simp)⟩

end ClaimTheorems

end Vpt
